import Mathlib

/-!
Shallow embedding of the BPE trainer in
`src/tokenizers/src/models/bpe/trainer.rs` (the SuperBPE-custom fork of the
HuggingFace `tokenizers` BPE trainer), together with proofs checking the
natural-language specification against it.

Modelling conventions:
* `u32` token ids, `u64` counts and `usize` values are `Nat`; the signed
  64-bit `pair_counts` values are `Int`; the one place the code casts an
  `i64` to `u64` (`as u64`) is modelled exactly as reduction modulo `2^64`
  (`i64AsU64`); no claim depends on `i64` addition overflow, which is not
  modelled.
* Rust `HashMap`s are modelled as association lists (first match wins,
  `assocInsert` replaces in place or appends, mirroring `HashMap::insert`);
  `pair_counts` is modelled as a total function `Pair → Int` with default 0
  (the code only ever indexes `pair_counts[p]` at keys previously inserted,
  so the default is never observed); `HashSet<usize>` is a `List Nat` kept
  duplicate-free by the insert operation.
* File contents (`merges.txt`, `alphabet.txt`, `special_tokens.txt`) and the
  word-count map are passed as already-parsed lists; `panic!`/`unwrap`
  failures are `Except.error`.
* The merge loops are given explicit fuel; iteration order of Rust `HashMap`
  traversals is fixed to list order (every claim proved here is insensitive
  to that order).
-/

/-- Lookup in an association list, first match wins (models `HashMap::get`). -/
def alookup [DecidableEq α] (k : α) : List (α × β) → Option β
  | [] => none
  | (k', v) :: t => if k' = k then some v else alookup k t

/-- Insert into an association list: replace the first entry with this key in
place, or append (models `HashMap::insert`). -/
def assocInsert [DecidableEq α] : List (α × β) → α → β → List (α × β)
  | [], k, v => [(k, v)]
  | (k', v') :: t, k, v => if k' = k then (k, v) :: t else (k', v') :: assocInsert t k v

/-- Remove the first entry with the given key (models `HashMap::remove`). -/
def assocRemove [DecidableEq α] : List (α × β) → α → List (α × β)
  | [], _ => []
  | (k', v') :: t, k => if k' = k then t else (k', v') :: assocRemove t k

/-- Value of `usize::MAX` on the 64-bit targets this code runs on. -/
def USIZE_MAX : Nat := 2 ^ 64 - 1

/-- Exact model of the Rust cast `(v : i64) as u64`: two's-complement
reinterpretation, i.e. reduction modulo `2^64`. -/
def i64AsU64 (v : Int) : Nat := (v % (2 ^ 64 : Int)).toNat

/-- A pair of adjacent token ids (`type Pair = (u32, u32)`). -/
abbrev Pair := Nat × Nat

/-- Queue element of the trainer (`struct Merge { pair, count, pos }`). -/
structure Merge where
  pair : Pair
  count : Nat
  pos : List Nat
deriving DecidableEq, Repr

/-- Lexicographic comparison of `(u32, u32)` pairs, as derived by Rust for
tuples. -/
def pairCmp (p q : Pair) : Ordering :=
  match compare p.1 q.1 with
  | .eq => compare p.2 q.2
  | o => o

/-- Embedding of `impl Ord for Merge` (trainer.rs lines 29-38): compare by
`count`; on equal counts the pair comparison is reversed so that the smaller
pair is the greater queue element. -/
def Merge.cmp (m1 m2 : Merge) : Ordering :=
  if m1.count ≠ m2.count then compare m1.count m2.count
  else pairCmp m2.pair m1.pair

/-- Pop a maximal element (w.r.t. `Merge.cmp`) from a list: models
`BinaryHeap::pop`, which returns a greatest element.  The remaining list is
returned in unspecified order, like the heap's contents. -/
def popMax : List Merge → Option (Merge × List Merge)
  | [] => none
  | m :: ms =>
    match popMax ms with
    | none => some (m, [])
    | some (m', rest) =>
      if Merge.cmp m' m = .gt then some (m', m :: rest) else some (m, m' :: rest)

/-- Trainer configuration (`struct BpeTrainer`, public fields). -/
structure Config where
  minFrequency : Nat
  vocabSize : Nat
  showProgress : Bool
  specialTokens : List String
  limitAlphabet : Option Nat
  initialAlphabet : List Char
  continuingSubwordPrefix : Option String
  endOfWordSuffix : Option String
  maxTokenLength : Option Nat

/-- The `max_token_length` actually used: `self.max_token_length.unwrap_or(usize::MAX)`. -/
def maxLen (cfg : Config) : Nat := cfg.maxTokenLength.getD USIZE_MAX

/-- Modelled from the spec: the repository ships only `trainer.rs`; the `Word`
collaborator (`word.rs`) is specified in §3 and §4.7 of the spec.  A word is
an ordered sequence of symbols, each carrying its token id and its length
(the trainer always adds initial symbols with length 1, trainer.rs line 380). -/
abbrev WordSyms := List (Nat × Nat)

/-- Modelled from the spec: one left-to-right pass of `Word::merge` (§4.7).
`left` is the symbol immediately to the left of the remaining suffix.  Every
non-overlapping `(a, b)` adjacency is rewritten to `c` (skipping adjacencies
whose combined length would exceed `maxL`); each rewrite emits `-1` deltas
for the old neighbor pairs and `+1` deltas for the new ones; the count of
`(a, b)` itself is not reported. -/
def wordMergeGo (a b c maxL : Nat) :
    Option (Nat × Nat) → WordSyms → WordSyms × List (Pair × Int)
  | _, [] => ([], [])
  | _, [x] => ([x], [])
  | left, x :: y :: rest =>
    if x.1 = a ∧ y.1 = b ∧ x.2 + y.2 ≤ maxL then
      let newSym : Nat × Nat := (c, x.2 + y.2)
      let dLeft : List (Pair × Int) :=
        match left with
        | some l => [((l.1, a), -1), ((l.1, c), 1)]
        | none => []
      let dRight : List (Pair × Int) :=
        match rest with
        | r :: _ => [((b, r.1), -1), ((c, r.1), 1)]
        | [] => []
      let res := wordMergeGo a b c maxL (some newSym) rest
      (newSym :: res.1, dLeft ++ dRight ++ res.2)
    else
      let res := wordMergeGo a b c maxL (some x) (y :: rest)
      (x :: res.1, res.2)

/-- Modelled from the spec: `Word::merge(a, b, c, max_len)` — rewrite the word
and return the induced pair deltas (§4.7). -/
def wordMerge (a b c maxL : Nat) (w : WordSyms) : WordSyms × List (Pair × Int) :=
  wordMergeGo a b c maxL none w

/-- Shared vocabulary-insertion pattern used throughout the trainer (e.g.
trainer.rs lines 374-379, 630-638, 663-670, 809-816, 996-1003): look the
symbol up; if absent, push it onto `id_to_word` and map it to the fresh id
`id_to_word.len()` (taken before the push).  Returns the two maps and the id
of the symbol. -/
def vocabAdd (w2id : List (String × Nat)) (id2w : List String) (s : String) :
    List (String × Nat) × List String × Nat :=
  match alookup s w2id with
  | some id => (w2id, id2w, id)
  | none => (assocInsert w2id s id2w.length, id2w ++ [s], id2w.length)

/-- Embedding of `add_special_tokens` (trainer.rs lines 255-280): the parsed
lines of `special_tokens.txt` are appended in file order; each line's id must
equal the current `id_to_word.len()` and the token must be fresh, otherwise
the function panics (modelled as `Except.error`).  The configured
`special_tokens` list is not consulted. -/
def add_special_tokens :
    List (String × Nat) → List (String × Nat) → List String →
    Except String (List (String × Nat) × List String)
  | [], w2id, id2w => .ok (w2id, id2w)
  | (tok, tid) :: rest, w2id, id2w =>
    if tid ≠ id2w.length then
      .error ("Expected token_id to be " ++ toString id2w.length ++ " for token " ++ tok)
    else if (alookup tok w2id).isSome then
      .error ("Token " ++ tok ++ " already exists in vocabulary")
    else
      add_special_tokens rest (assocInsert w2id tok tid) (id2w ++ [tok])

/-- Embedding of the `alphabet.txt` loader of `do_train_extend` (trainer.rs
lines 509-528): each line's id must equal the current `id_to_word.len()`
(panic otherwise); the token is pushed and inserted unconditionally — there
is no freshness check. -/
def load_alphabet :
    List (String × Nat) → List (String × Nat) → List String →
    Except String (List (String × Nat) × List String)
  | [], w2id, id2w => .ok (w2id, id2w)
  | (tok, tid) :: rest, w2id, id2w =>
    if id2w.length ≠ tid then
      .error ("Expected token_id to be " ++ toString id2w.length)
    else
      load_alphabet rest (assocInsert w2id tok tid) (id2w ++ [tok])

/-- Add `cnt` to the tallied weight of character `c`
(`alphabet.entry(c).and_modify(|cnt| *cnt += count).or_insert(count)`). -/
def alphaAdd : List (Char × Nat) → Char → Nat → List (Char × Nat)
  | [], c, cnt => [(c, cnt)]
  | (d, v) :: t, c, cnt =>
    if d = c then (d, v + cnt) :: t else (d, v) :: alphaAdd t c cnt

/-- Overwrite the weight of character `c` with `usize::MAX`
(`alphabet.entry(*c).and_modify(|cnt| *cnt = usize::MAX).or_insert(usize::MAX)`). -/
def alphaSetMax : List (Char × Nat) → Char → List (Char × Nat)
  | [], c => [(c, USIZE_MAX)]
  | (d, v) :: t, c =>
    if d = c then (d, USIZE_MAX) :: t else (d, v) :: alphaSetMax t c

/-- Tally one word's characters with multiplicity `cnt`. -/
def tallyWord (cnt : Nat) : List Char → List (Char × Nat) → List (Char × Nat)
  | [], m => m
  | ch :: rest, m => tallyWord cnt rest (alphaAdd m ch cnt)

/-- Tally the whole word-count map (trainer.rs lines 290-298). -/
def alphaTally : List (String × Nat) → List (Char × Nat) → List (Char × Nat)
  | [], m => m
  | (w, cnt) :: rest, m => alphaTally rest (tallyWord cnt w.data m)

/-- Ascending-weight order used by `kept.sort_unstable_by_key(|k| *k.1)`. -/
def weightLE (a b : Char × Nat) : Prop := a.2 ≤ b.2

instance : DecidableRel weightLE := fun a b => Nat.decLe a.2 b.2

instance : IsTotal (Char × Nat) weightLE := ⟨fun a b => Nat.le_total a.2 b.2⟩

instance : IsTrans (Char × Nat) weightLE := ⟨fun _ _ _ h1 h2 => Nat.le_trans h1 h2⟩

/-- Ascending-codepoint order used by
`kept.sort_unstable_by_key(|k| (*k.0) as u32)`. -/
def codepointLE (a b : Char × Nat) : Prop := a.1.toNat ≤ b.1.toNat

instance : DecidableRel codepointLE := fun a b => Nat.decLe a.1.toNat b.1.toNat

instance : IsTotal (Char × Nat) codepointLE := ⟨fun a b => Nat.le_total a.1.toNat b.1.toNat⟩

instance : IsTrans (Char × Nat) codepointLE := ⟨fun _ _ _ h1 h2 => Nat.le_trans h1 h2⟩

/-- The tallied alphabet with `initial_alphabet` weights overwritten to
`usize::MAX` (trainer.rs lines 289-306). -/
def alphaMap (cfg : Config) (wc : List (String × Nat)) : List (Char × Nat) :=
  cfg.initialAlphabet.foldl alphaSetMax (alphaTally wc [])

/-- Number of characters to drop (trainer.rs lines 310-322). -/
def alphaToRemove (cfg : Config) (wc : List (String × Nat)) : Nat :=
  match cfg.limitAlphabet with
  | some limit =>
    if (alphaMap cfg wc).length > limit then (alphaMap cfg wc).length - limit else 0
  | none => 0

/-- The surviving characters: when something must be removed, sort by weight
ascending and drain the lowest-weight prefix (trainer.rs lines 324-328). -/
def alphaKept (cfg : Config) (wc : List (String × Nat)) : List (Char × Nat) :=
  if alphaToRemove cfg wc > 0 then
    (List.insertionSort weightLE (alphaMap cfg wc)).drop (alphaToRemove cfg wc)
  else alphaMap cfg wc

/-- Embedding of `compute_alphabet` (trainer.rs lines 282-339): sort the
surviving characters by codepoint and append the fresh ones to the
vocabulary. -/
def compute_alphabet (cfg : Config) (wc : List (String × Nat))
    (w2id : List (String × Nat)) (id2w : List String) :
    List (String × Nat) × List String :=
  (List.insertionSort codepointLE (alphaKept cfg wc)).foldl
    (fun st e =>
      let v := vocabAdd st.1 st.2 e.1.toString
      (v.1, v.2.1))
    (w2id, id2w)

/-- Decoration of a bare one-character symbol (trainer.rs lines 361-372):
prepend the continuing-subword prefix unless positionally first, append the
end-of-word suffix if positionally last. -/
def decorate (cfg : Config) (isFirst isLast : Bool) (bare : String) : String :=
  let s1 :=
    if ¬ isFirst then
      match cfg.continuingSubwordPrefix with
      | some pre => pre ++ bare
      | none => bare
    else bare
  if isLast then
    match cfg.endOfWordSuffix with
    | some suf => s1 ++ suf
    | none => s1
  else s1

/-- Process the characters of one word (`tokenize_words`, trainer.rs lines
356-382): a character whose bare form is not in the vocabulary is skipped;
otherwise the decorated symbol is ensured in the vocabulary and its id
appended to the word with length 1. -/
def tokenizeChars (cfg : Config) :
    List Char → Bool → List (String × Nat) → List String → WordSyms →
    List (String × Nat) × List String × WordSyms
  | [], _, w2id, id2w, word => (w2id, id2w, word)
  | ch :: rest, isFirst, w2id, id2w, word =>
    if (alookup ch.toString w2id).isSome then
      let v := vocabAdd w2id id2w (decorate cfg isFirst rest.isEmpty ch.toString)
      tokenizeChars cfg rest false v.1 v.2.1 (word ++ [(v.2.2, 1)])
    else
      tokenizeChars cfg rest false w2id id2w word

/-- Embedding of `tokenize_words` (trainer.rs lines 341-391): returns the
updated vocabulary and the parallel `words`/`counts` arrays, in the traversal
order of the word-count map (fixed here to list order). -/
def tokenize_words (cfg : Config) :
    List (String × Nat) → List (String × Nat) → List String →
    List (String × Nat) × List String × List WordSyms × List Nat
  | [], w2id, id2w => (w2id, id2w, [], [])
  | (w, cnt) :: rest, w2id, id2w =>
    let t := tokenizeChars cfg w.data true w2id id2w []
    let r := tokenize_words cfg rest t.1 t.2.1
    (r.1, r.2.1, t.2.2 :: r.2.2.1, cnt :: r.2.2.2)

/-- Pointwise update of the pair-count map
(`pair_counts.entry(p).and_modify(|c| *c += d).or_insert(d)`, with the map
modelled as a total function defaulting to 0). -/
def pcAdd (pc : Pair → Int) (p : Pair) (d : Int) : Pair → Int :=
  fun q => if q = p then pc q + d else pc q

/-- Add word index `i` to the position set of pair `p`
(`where_to_update.entry(p) … insert(i)`). -/
def wtuAdd : List (Pair × List Nat) → Pair → Nat → List (Pair × List Nat)
  | [], p, i => [(p, [i])]
  | (q, l) :: t, p, i =>
    if q = p then (q, if i ∈ l then l else l ++ [i]) :: t
    else (q, l) :: wtuAdd t p i

/-- Slide a window of size 2 over one word (`count_pairs` inner loop,
trainer.rs lines 406-427). -/
def countWindows (i cnt : Nat) :
    WordSyms → (Pair → Int) × List (Pair × List Nat) →
    (Pair → Int) × List (Pair × List Nat)
  | x :: y :: rest, st =>
    countWindows i cnt (y :: rest)
      (pcAdd st.1 (x.1, y.1) (cnt : Int), wtuAdd st.2 (x.1, y.1) i)
  | _, st => st

/-- Iterate `countWindows` over all words with their indices. -/
def countPairsGo (counts : List Nat) :
    List WordSyms → Nat → (Pair → Int) × List (Pair × List Nat) →
    (Pair → Int) × List (Pair × List Nat)
  | [], _, st => st
  | w :: rest, i, st => countPairsGo counts rest (i + 1) (countWindows i (counts.getD i 0) w st)

/-- Embedding of `count_pairs` (trainer.rs lines 393-450).  The Rust code is
a parallel map-reduce whose reduction is commutative and associative; the
sequential fold computes the same result. -/
def count_pairs (words : List WordSyms) (counts : List Nat) :
    (Pair → Int) × List (Pair × List Nat) :=
  countPairsGo counts words 0 (fun _ => 0, [])

/-- Apply the deltas returned by the word rewrites (trainer.rs lines
1026-1044 / 839-857 / 693-711): scale each per-occurrence delta by the
word's count, add it to `pair_counts`, and record the word index in
`where_to_update` for positive deltas. -/
def applyChanges (counts : List Nat) :
    List ((Pair × Int) × Nat) → (Pair → Int) × List (Pair × List Nat) →
    (Pair → Int) × List (Pair × List Nat)
  | [], st => st
  | ((p, change), iw) :: rest, st =>
    let d : Int := change * ((counts.getD iw 0 : Nat) : Int)
    applyChanges counts rest
      (pcAdd st.1 p d, if 0 < change then wtuAdd st.2 p iw else st.2)

/-- Rewrite every word listed in the popped element's position set
(trainer.rs lines 1006-1023 / 819-836 / 673-690) and collect the deltas
tagged with their word index. -/
def mergeWords (a b c maxL : Nat) :
    List Nat → List WordSyms → List ((Pair × Int) × Nat) →
    List WordSyms × List ((Pair × Int) × Nat)
  | [], words, acc => (words, acc)
  | i :: rest, words, acc =>
    let r := wordMerge a b c maxL (words.getD i [])
    mergeWords a b c maxL rest (words.set i r.1) (acc ++ r.2.map (fun d => (d, i)))

/-- Drain `where_to_update` into the binary heap (trainer.rs lines 1045-1054
/ 858-867 / 938-947): each pair with a positive current count is pushed with
that count cast to `u64`. -/
def drainPush (pc : Pair → Int) (wtu : List (Pair × List Nat)) (q : List Merge) :
    List Merge :=
  wtu.foldl
    (fun acc e =>
      if 0 < pc e.1 then { pair := e.1, count := i64AsU64 (pc e.1), pos := e.2 } :: acc
      else acc)
    q

/-- Drain `where_to_update` into the replay-phase `HashMap<Pair, Merge>`
queue (trainer.rs lines 565-578 and 712-721). -/
def drainIntoMap (pc : Pair → Int) (wtu : List (Pair × List Nat))
    (qm : List (Pair × Merge)) : List (Pair × Merge) :=
  wtu.foldl
    (fun acc e =>
      if 0 < pc e.1 then
        assocInsert acc e.1 { pair := e.1, count := i64AsU64 (pc e.1), pos := e.2 }
      else acc)
    qm

/-- State of the discovery-mode merge loop (locals of `do_train_original`
step 5 / `do_train_extend` step 6). -/
structure LoopState where
  w2id : List (String × Nat)
  id2w : List String
  words : List WordSyms
  counts : List Nat
  pairCounts : Pair → Int
  wtu : List (Pair × List Nat)
  queue : List Merge
  merges : List (Pair × Nat)

/-- Result of one iteration of a merge loop: `stop` is a `break`, `next` is a
`continue` or a normal fall-through to the next iteration. -/
inductive StepRes where
  | stop (s : LoopState)
  | next (s : LoopState)

/-- Build `part_b` with the continuing-subword prefix stripped when present
(trainer.rs lines 984-989 and twins). -/
def stripPart (cfg : Config) (pb : String) : String :=
  match cfg.continuingSubwordPrefix with
  | some pre => if pre.isPrefixOf pb then pb.drop pre.length else pb
  | none => pb

/-- Compute `part_a` and the (possibly prefix-stripped) `part_b` for a pair. -/
def buildPartsFrom (cfg : Config) (id2w : List String) (p : Pair) : String × String :=
  (id2w.getD p.1 "", stripPart cfg (id2w.getD p.2 ""))

/-- Perform an accepted merge (trainer.rs lines 995-1054 / 808-867): insert
the new token if absent, emit the merge rule, rewrite all words in the
popped position set, reconcile the pair counts, and drain the refreshed
positions into the queue. -/
def performMerge (cfg : Config) (s : LoopState) (top : Merge) (rest : List Merge)
    (newToken : String) : LoopState :=
  let v := vocabAdd s.w2id s.id2w newToken
  let mw := mergeWords top.pair.1 top.pair.2 v.2.2 (maxLen cfg) top.pos s.words []
  let ac := applyChanges s.counts mw.2 (s.pairCounts, s.wtu)
  { w2id := v.1, id2w := v.2.1, words := mw.1, counts := s.counts,
    pairCounts := ac.1, wtu := [], queue := drainPush ac.1 ac.2 rest,
    merges := s.merges ++ [(top.pair, v.2.2)] }

/-- Body of a `do_train_original` loop iteration after a successful pop
(trainer.rs lines 965-1058): stale check, termination check, then the merge. -/
def originalStepTop (cfg : Config) (s : LoopState) (top : Merge) (rest : List Merge) :
    StepRes :=
  if top.count ≠ i64AsU64 (s.pairCounts top.pair) then
    .next { s with queue :=
      { pair := top.pair, count := i64AsU64 (s.pairCounts top.pair), pos := top.pos } :: rest }
  else if top.count < 1 ∨ cfg.minFrequency > top.count then .stop s
  else
    let pp := buildPartsFrom cfg s.id2w top.pair
    .next (performMerge cfg s top rest (pp.1 ++ pp.2))

/-- One iteration of the `do_train_original` merge loop (trainer.rs lines
955-1059). -/
def originalStep (cfg : Config) (s : LoopState) : StepRes :=
  if cfg.vocabSize ≤ s.w2id.length then .stop s
  else
    match popMax s.queue with
    | none => .stop s
    | some (top, rest) => originalStepTop cfg s top rest

/-- The whitespace-sentinel `"Ġ"` (`U+0120`). -/
def sentinelG : Char := 'Ġ'

/-- Split a character list on the sentinel character, keeping empty groups
(so `[Ġ]ab[Ġ]` yields `["", "ab", ""]` like Rust `str::split`). -/
def splitSentinel : List Char → List Char → List (List Char)
  | [], acc => [acc.reverse]
  | x :: t, acc =>
    if x = sentinelG then acc.reverse :: splitSentinel t []
    else splitSentinel t (x :: acc)

/-- Number of non-empty groups of the candidate split on `"Ġ"`
(`new_token.split("Ġ").filter(|s| !s.is_empty()).count()`, trainer.rs line
791; the separator is the single character `U+0120`, so splitting on the
one-character string coincides with splitting the character sequence on that
character). -/
def numGroups (tok : String) : Nat :=
  ((splitSentinel tok.data []).filter (fun t => t ≠ [])).length

/-- Whether the last character of a string is an ASCII digit
(`part_a.chars().last().map_or(false, |c| c.is_ascii_digit())`). -/
def endsDigit (t : String) : Bool := (t.data.getLast?.map Char.isDigit).getD false

/-- Whether the first character of a string is an ASCII digit
(`part_b.chars().next().map_or(false, |c| c.is_ascii_digit())`). -/
def startsDigit (t : String) : Bool := (t.data.head?.map Char.isDigit).getD false

/-- Body of a `do_train_extend` post-replay loop iteration after a successful
pop (trainer.rs lines 757-871): stale check, termination check, the two
discovery-mode filters (Ġ-group cap and digit-boundary guard), then the
merge. -/
def extendStepFilters (cfg : Config) (s : LoopState) (top : Merge) (rest : List Merge)
    (pp : String × String) : StepRes :=
  if numGroups (pp.1 ++ pp.2) > 20 then .next { s with queue := rest }
  else if endsDigit pp.1 || startsDigit pp.2 then .next { s with queue := rest }
  else .next (performMerge cfg s top rest (pp.1 ++ pp.2))

/-- Body of a `do_train_extend` post-replay loop iteration after a successful
pop, part two: stale check, termination check, then the filter chain above. -/
def extendStepTop (cfg : Config) (s : LoopState) (top : Merge) (rest : List Merge) :
    StepRes :=
  if top.count ≠ i64AsU64 (s.pairCounts top.pair) then
    .next { s with queue :=
      { pair := top.pair, count := i64AsU64 (s.pairCounts top.pair), pos := top.pos } :: rest }
  else if top.count < 1 ∨ cfg.minFrequency > top.count then .stop s
  else extendStepFilters cfg s top rest (buildPartsFrom cfg s.id2w top.pair)

/-- One iteration of the `do_train_extend` post-replay merge loop
(trainer.rs lines 747-872). -/
def extendStep (cfg : Config) (s : LoopState) : StepRes :=
  if cfg.vocabSize ≤ s.w2id.length then .stop s
  else
    match popMax s.queue with
    | none => .stop s
    | some (top, rest) => extendStepTop cfg s top rest

/-- Run the `do_train_original` merge loop with the given fuel. -/
def runLoopO (cfg : Config) : Nat → LoopState → LoopState
  | 0, s => s
  | fuel + 1, s =>
    match originalStep cfg s with
    | .stop t => t
    | .next t => runLoopO cfg fuel t

/-- Run the `do_train_extend` post-replay merge loop with the given fuel. -/
def runLoopE (cfg : Config) : Nat → LoopState → LoopState
  | 0, s => s
  | fuel + 1, s =>
    match extendStep cfg s with
    | .stop t => t
    | .next t => runLoopE cfg fuel t

/-- State of the extend-mode replay phase, whose queue is a
`HashMap<Pair, Merge>` rather than a heap (trainer.rs line 566). -/
structure RState where
  w2id : List (String × Nat)
  id2w : List String
  words : List WordSyms
  counts : List Nat
  pairCounts : Pair → Int
  wtu : List (Pair × List Nat)
  queueMap : List (Pair × Merge)
  merges : List (Pair × Nat)

/-- Replay of one external merge entry whose pair has no entry in the replay
queue (trainer.rs lines 614-642): still emit the merge rule and ensure the
concatenated token exists, touching nothing else. -/
def replayPhantom (cfg : Config) (s : RState) (p : Pair) : RState :=
  let pp := buildPartsFrom cfg s.id2w p
  let v := vocabAdd s.w2id s.id2w (pp.1 ++ pp.2)
  { s with w2id := v.1, id2w := v.2.1, merges := s.merges ++ [(p, v.2.2)] }

/-- Replay of one external merge entry whose pair is present in the replay
queue (trainer.rs lines 644-726): remove it, run the full merge (vocabulary
update, emission, rewrite, reconciliation) and re-drain the refreshed
positions into the queue map. -/
def replayMergeHit (cfg : Config) (s : RState) (p : Pair) (top : Merge) : RState :=
  let qm1 := assocRemove s.queueMap p
  let pp := buildPartsFrom cfg s.id2w p
  let v := vocabAdd s.w2id s.id2w (pp.1 ++ pp.2)
  let mw := mergeWords p.1 p.2 v.2.2 (maxLen cfg) top.pos s.words []
  let ac := applyChanges s.counts mw.2 (s.pairCounts, s.wtu)
  { w2id := v.1, id2w := v.2.1, words := mw.1, counts := s.counts,
    pairCounts := ac.1, wtu := [], queueMap := drainIntoMap ac.1 ac.2 qm1,
    merges := s.merges ++ [(p, v.2.2)] }

/-- Dispatch between the two replay branches on queue membership
(trainer.rs line 614, `!queue.contains_key(&override_pair)`). -/
def replayWithPair (cfg : Config) (s : RState) (p : Pair) : RState :=
  match alookup p s.queueMap with
  | none => replayPhantom cfg s p
  | some top => replayMergeHit cfg s p top

/-- Replay one entry of the external merge list (trainer.rs lines 594-726):
panic if either symbol is missing, then dispatch on queue membership. -/
def replayStep (cfg : Config) (s : RState) (left right : String) :
    Except String RState :=
  match alookup left s.w2id with
  | none => .error (left ++ " not found in word_to_id")
  | some lid =>
    match alookup right s.w2id with
    | none => .error (right ++ " not found in word_to_id")
    | some rid => .ok (replayWithPair cfg s (lid, rid))

/-- Replay the whole external merge list in order, propagating panics. -/
def replayList (cfg : Config) : List (String × String) → RState → Except String RState
  | [], s => .ok s
  | e :: t, s =>
    match replayStep cfg s e.1 e.2 with
    | .error msg => .error msg
    | .ok s' => replayList cfg t s'

/-- Final data transferred to the BPE model plus the trainer's return value
(trainer.rs lines 1062-1086 / 875-899). -/
structure TrainOut where
  vocab : List (String × Nat)
  vocabR : List (Nat × String)
  mergesList : List (Pair × Nat)
  merges : List (Pair × (Nat × Nat))
  continuingSubwordPrefix : Option String
  endOfWordSuffix : Option String
  returned : List String
deriving DecidableEq

/-- Conversion of the emitted merge list into `model.merges`
(`merges.into_iter().enumerate().map(|(i, (pair, nid))| (pair, (i, nid))).collect()`):
a `HashMap` keyed by pair, built by repeated insertion, so a later emission
of the same pair overwrites an earlier one. -/
def buildModelMerges (l : List (Pair × Nat)) : List (Pair × (Nat × Nat)) :=
  l.enum.foldl (fun m e => assocInsert m e.2.1 (e.1, e.2.2)) []

/-- Conversion of `model.vocab` into `model.vocab_r` by swapping entries. -/
def buildVocabR (v : List (String × Nat)) : List (Nat × String) :=
  v.foldl (fun m e => assocInsert m e.2 e.1) []

/-- Assemble the model transfer and return value shared by both training
functions. -/
def transferOut (cfg : Config) (s : LoopState) : TrainOut :=
  { vocab := s.w2id, vocabR := buildVocabR s.w2id, mergesList := s.merges,
    merges := buildModelMerges s.merges,
    continuingSubwordPrefix := cfg.continuingSubwordPrefix,
    endOfWordSuffix := cfg.endOfWordSuffix,
    returned := cfg.specialTokens }

/-- Embedding of `do_train_original` (trainer.rs lines 902-1087).
`specialFile` is the parsed content of `special_tokens.txt`, `wc` the
word-count map, `fuel` a bound on merge-loop iterations. -/
def do_train_original (cfg : Config) (specialFile : List (String × Nat))
    (wc : List (String × Nat)) (fuel : Nat) : Except String TrainOut :=
  match add_special_tokens specialFile [] [] with
  | .error e => .error e
  | .ok wi =>
    let ca := compute_alphabet cfg wc wi.1 wi.2
    let tw := tokenize_words cfg wc ca.1 ca.2
    let cp := count_pairs tw.2.2.1 tw.2.2.2
    let s0 : LoopState :=
      { w2id := tw.1, id2w := tw.2.1, words := tw.2.2.1, counts := tw.2.2.2,
        pairCounts := cp.1, wtu := [], queue := drainPush cp.1 cp.2 [], merges := [] }
    .ok (transferOut cfg (runLoopO cfg fuel s0))

/-- Embedding of `do_train_extend` (trainer.rs lines 468-900).  `mergesFile`,
`alphaFile` and `specialFile` are the parsed contents of `merges.txt` (minus
the version header), `alphabet.txt` and `special_tokens.txt`. -/
def do_train_extend (cfg : Config) (mergesFile : List (String × String))
    (alphaFile specialFile : List (String × Nat)) (wc : List (String × Nat))
    (fuel : Nat) : Except String TrainOut :=
  match load_alphabet alphaFile [] [] with
  | .error e => .error e
  | .ok wi =>
    let tw := tokenize_words cfg wc wi.1 wi.2
    let cp := count_pairs tw.2.2.1 tw.2.2.2
    let r0 : RState :=
      { w2id := tw.1, id2w := tw.2.1, words := tw.2.2.1, counts := tw.2.2.2,
        pairCounts := cp.1, wtu := [], queueMap := drainIntoMap cp.1 cp.2 [],
        merges := [] }
    match replayList cfg mergesFile r0 with
    | .error e => .error e
    | .ok r1 =>
      match add_special_tokens specialFile r1.w2id r1.id2w with
      | .error e => .error e
      | .ok wi2 =>
        let s0 : LoopState :=
          { w2id := wi2.1, id2w := wi2.2, words := r1.words, counts := r1.counts,
            pairCounts := r1.pairCounts, wtu := r1.wtu,
            queue := r1.queueMap.map (fun e => e.2), merges := r1.merges }
        .ok (transferOut cfg (runLoopE cfg fuel s0))

/-- Embedding of `do_train` (trainer.rs lines 452-466): the presence of
`merges.txt` selects extend mode. -/
def do_train (cfg : Config) (mergesFile : Option (List (String × String)))
    (alphaFile specialFile : List (String × Nat)) (wc : List (String × Nat))
    (fuel : Nat) : Except String TrainOut :=
  match mergesFile with
  | some mf => do_train_extend cfg mf alphaFile specialFile wc fuel
  | none => do_train_original cfg specialFile wc fuel

/-- Project the state out of a loop-step result. -/
def StepRes.state : StepRes → LoopState
  | .stop s => s
  | .next s => s

theorem alookup_assocInsert_self [DecidableEq α] (m : List (α × β)) (k : α) (v : β) :
    alookup k (assocInsert m k v) = some v := by
  induction m with
  | nil => simp [assocInsert, alookup]
  | cons e t ih =>
    obtain ⟨k', v'⟩ := e
    by_cases h : k' = k
    · simp [assocInsert, h, alookup]
    · simp [assocInsert, h, alookup, ih]

theorem alookup_assocInsert_ne [DecidableEq α] (m : List (α × β)) (k k' : α) (v : β)
    (h : k' ≠ k) : alookup k' (assocInsert m k v) = alookup k' m := by
  have hkk : ¬ (k = k') := fun he => h he.symm
  induction m with
  | nil => simp [assocInsert, alookup, hkk]
  | cons e t ih =>
    obtain ⟨a, b⟩ := e
    by_cases ha : a = k
    · subst ha
      simp [assocInsert, alookup, hkk]
    · simp [assocInsert, ha, alookup, ih]

theorem assocInsert_of_alookup_none [DecidableEq α] (m : List (α × β)) (k : α) (v : β)
    (h : alookup k m = none) : assocInsert m k v = m ++ [(k, v)] := by
  induction m with
  | nil => simp [assocInsert]
  | cons e t ih =>
    obtain ⟨a, b⟩ := e
    by_cases ha : a = k
    · simp [alookup, ha] at h
    · simp [alookup, ha] at h
      simp [assocInsert, ha, ih h]

theorem alookup_append [DecidableEq α] (m1 m2 : List (α × β)) (k : α) :
    alookup k (m1 ++ m2) =
      match alookup k m1 with
      | some v => some v
      | none => alookup k m2 := by
  induction m1 with
  | nil => simp [alookup]
  | cons e t ih =>
    obtain ⟨a, b⟩ := e
    by_cases ha : a = k
    · simp [alookup, ha]
    · simp [alookup, ha, ih]

theorem getD_append_of_lt (l l' : List String) (i : Nat) (h : i < l.length) :
    (l ++ l').getD i "" = l.getD i "" := by
  induction l generalizing i with
  | nil => simp at h
  | cons x t ih =>
    cases i with
    | zero => simp [List.getD]
    | succ j =>
      simp only [List.cons_append]
      simp only [List.getD_cons_succ]
      exact ih j (by simpa using h)

theorem getD_append_length (l : List String) (x : String) :
    (l ++ [x]).getD l.length "" = x := by
  induction l with
  | nil => simp [List.getD]
  | cons y t ih =>
    simp only [List.cons_append, List.length_cons, List.getD_cons_succ]
    exact ih

theorem popMax_eq_none_iff (q : List Merge) : popMax q = none ↔ q = [] := by
  cases q with
  | nil => simp [popMax]
  | cons m ms =>
    simp only [popMax]
    cases hp : popMax ms with
    | none => simp
    | some r =>
      obtain ⟨m', rest⟩ := r
      by_cases hg : Merge.cmp m' m = .gt <;> simp [hg]

/-- Strict "popped strictly earlier" order corresponding to `Merge.cmp … = .gt`:
larger cached count first, ties broken by lexicographically smaller pair. -/
def mergeAbove (m1 m2 : Merge) : Prop :=
  m2.count < m1.count ∨
    (m1.count = m2.count ∧
      (m1.pair.1 < m2.pair.1 ∨ (m1.pair.1 = m2.pair.1 ∧ m1.pair.2 < m2.pair.2)))

theorem pairCmp_eq_gt_iff (p q : Pair) :
    pairCmp p q = .gt ↔ (q.1 < p.1 ∨ (p.1 = q.1 ∧ q.2 < p.2)) := by
  unfold pairCmp
  rcases Nat.lt_trichotomy p.1 q.1 with h | h | h
  · rw [Nat.compare_eq_lt.2 h]
    simp
    omega
  · rw [Nat.compare_eq_eq.2 h]
    simp [Nat.compare_eq_gt]
    omega
  · rw [Nat.compare_eq_gt.2 h]
    simp
    omega

theorem mergeCmp_eq_gt_iff (m1 m2 : Merge) : Merge.cmp m1 m2 = .gt ↔ mergeAbove m1 m2 := by
  unfold Merge.cmp mergeAbove
  by_cases h : m1.count = m2.count
  · simp [h, pairCmp_eq_gt_iff]
    omega
  · have h' : m1.count ≠ m2.count := h
    simp [h', Nat.compare_eq_gt]

theorem mergeAbove_irrefl (m : Merge) : ¬ mergeAbove m m := by
  unfold mergeAbove
  omega

theorem not_mergeAbove_trans {a b c : Merge}
    (h1 : ¬ mergeAbove a b) (h2 : ¬ mergeAbove b c) : ¬ mergeAbove a c := by
  unfold mergeAbove at *
  omega

theorem popMax_maximal (q : List Merge) (top : Merge) (rest : List Merge)
    (h : popMax q = some (top, rest)) : ∀ m ∈ q, ¬ mergeAbove m top := by
  induction q generalizing top rest with
  | nil => simp [popMax] at h
  | cons x xs ih =>
    simp only [popMax] at h
    cases hp : popMax xs with
    | none =>
      rw [hp] at h
      simp only [Option.some.injEq, Prod.mk.injEq] at h
      obtain ⟨h1, _⟩ := h
      subst h1
      have hxs : xs = [] := (popMax_eq_none_iff xs).1 hp
      subst hxs
      intro m hm
      simp at hm
      subst hm
      exact mergeAbove_irrefl m
    | some r =>
      obtain ⟨m', rest'⟩ := r
      rw [hp] at h
      have h' : (if Merge.cmp m' x = Ordering.gt then some (m', x :: rest')
          else some (x, m' :: rest')) = some (top, rest) := h
      by_cases hg : Merge.cmp m' x = .gt
      · rw [if_pos hg] at h'
        simp only [Option.some.injEq, Prod.mk.injEq] at h'
        obtain ⟨h1, _⟩ := h'
        intro m hm
        rw [← h1]
        rcases List.mem_cons.1 hm with hmx | hmxs
        · subst hmx
          have habove : mergeAbove m' m := (mergeCmp_eq_gt_iff m' m).1 hg
          unfold mergeAbove at habove ⊢
          omega
        · exact ih m' rest' hp m hmxs
      · rw [if_neg hg] at h'
        simp only [Option.some.injEq, Prod.mk.injEq] at h'
        obtain ⟨h1, _⟩ := h'
        intro m hm
        rw [← h1]
        have hnot : ¬ mergeAbove m' x := fun hma => hg ((mergeCmp_eq_gt_iff m' x).2 hma)
        rcases List.mem_cons.1 hm with hmx | hmxs
        · subst hmx
          exact mergeAbove_irrefl m
        · exact not_mergeAbove_trans (ih m' rest' hp m hmxs) hnot

/-- C3: In the `Merge` priority order (`impl Ord for Merge`, trainer.rs lines
29-38), an element with a strictly larger cached count is the greater queue
element (hence popped first by the max-heap), and on equal counts the element
with the lexicographically smaller `(left, right)` pair is the greater queue
element; `popMax` (the model of `BinaryHeap::pop`) never leaves an element
strictly above the popped one. -/
theorem merge_queue_order :
    (∀ m1 m2 : Merge, m2.count < m1.count → Merge.cmp m1 m2 = .gt) ∧
    (∀ m1 m2 : Merge, m1.count = m2.count →
      m1.pair.1 < m2.pair.1 ∨ (m1.pair.1 = m2.pair.1 ∧ m1.pair.2 < m2.pair.2) →
      Merge.cmp m1 m2 = .gt) ∧
    (∀ q top rest, popMax q = some (top, rest) →
      ∀ m ∈ q, Merge.cmp m top ≠ .gt) := by
  refine ⟨?_, ?_, ?_⟩
  · intro m1 m2 h
    exact (mergeCmp_eq_gt_iff m1 m2).2 (Or.inl h)
  · intro m1 m2 hc hp
    exact (mergeCmp_eq_gt_iff m1 m2).2 (Or.inr ⟨hc, hp⟩)
  · intro q top rest h m hm hgt
    exact popMax_maximal q top rest h m hm ((mergeCmp_eq_gt_iff m top).1 hgt)

/-- Witness for C3 at concrete queue elements: a higher-count element beats a
lower-count one, and on tied counts the smaller pair beats the larger pair. -/
theorem merge_queue_order_witness :
    Merge.cmp { pair := (7, 7), count := 5, pos := [] }
      { pair := (0, 0), count := 3, pos := [] } = .gt ∧
    Merge.cmp { pair := (1, 2), count := 4, pos := [] }
      { pair := (1, 3), count := 4, pos := [] } = .gt := by
  constructor
  · exact merge_queue_order.1 _ _ (by decide)
  · exact merge_queue_order.2.1 _ _ (by decide) (by decide)

/-- C4: In both discovery-mode loops (trainer.rs lines 965-970 and 757-764),
when the popped element's cached count differs from the authoritative
`pair_counts` value of its pair, the iteration re-pushes the element with its
count refreshed to that value and restarts (`continue`): the resulting state
differs from the old one only in the queue, so no merge is emitted and no
word, vocabulary entry or pair count is modified. -/
theorem stale_entry_repush (cfg : Config) (s : LoopState) (top : Merge)
    (rest : List Merge)
    (hvs : s.w2id.length < cfg.vocabSize)
    (hpop : popMax s.queue = some (top, rest))
    (hstale : top.count ≠ i64AsU64 (s.pairCounts top.pair)) :
    originalStep cfg s = .next { s with queue :=
      { pair := top.pair, count := i64AsU64 (s.pairCounts top.pair),
        pos := top.pos } :: rest } ∧
    extendStep cfg s = .next { s with queue :=
      { pair := top.pair, count := i64AsU64 (s.pairCounts top.pair),
        pos := top.pos } :: rest } := by
  have hv : ¬ cfg.vocabSize ≤ s.w2id.length := by omega
  constructor
  · unfold originalStep
    rw [if_neg hv, hpop]
    show originalStepTop cfg s top rest = _
    unfold originalStepTop
    rw [if_pos hstale]
  · unfold extendStep
    rw [if_neg hv, hpop]
    show extendStepTop cfg s top rest = _
    unfold extendStepTop
    rw [if_pos hstale]

def staleW_cfg : Config :=
  { minFrequency := 0, vocabSize := 10, showProgress := false, specialTokens := [],
    limitAlphabet := none, initialAlphabet := [], continuingSubwordPrefix := none,
    endOfWordSuffix := none, maxTokenLength := none }

def staleW_s : LoopState :=
  { w2id := [("a", 0), ("b", 1)], id2w := ["a", "b"],
    words := [[(0, 1), (1, 1)]], counts := [1],
    pairCounts := fun p => if p = (0, 1) then 3 else 0, wtu := [],
    queue := [{ pair := (0, 1), count := 5, pos := [0] }], merges := [] }

/-- Witness for C4 at a concrete state whose queue holds one stale element
(cached count 5, authoritative count 3). -/
theorem stale_entry_repush_witness :
    originalStep staleW_cfg staleW_s = .next { staleW_s with queue :=
      [{ pair := (0, 1), count := i64AsU64 (staleW_s.pairCounts (0, 1)),
         pos := [0] }] } ∧
    extendStep staleW_cfg staleW_s = .next { staleW_s with queue :=
      [{ pair := (0, 1), count := i64AsU64 (staleW_s.pairCounts (0, 1)),
         pos := [0] }] } :=
  stale_entry_repush staleW_cfg staleW_s { pair := (0, 1), count := 5, pos := [0] }
    [] (by decide) (by rfl) (by decide)

/-- C9: In the stale-check path of both merge loops (trainer.rs lines 966-972
and 759-766), the comparison and the re-priced count apply
`pair_counts[top.pair] as u64` to the signed count: for a negative value `v`
in `i64` range the cast yields `2^64 + v`, so a pair whose current count is
negative is re-pushed with a huge positive priority (at least `2^63`, in
particular never below the `top.count < 1` termination threshold). -/
theorem negative_count_cast (cfg : Config) (s : LoopState) (top : Merge)
    (rest : List Merge) (v : Int)
    (hvs : s.w2id.length < cfg.vocabSize)
    (hpop : popMax s.queue = some (top, rest))
    (hv : s.pairCounts top.pair = v)
    (hneg : v < 0)
    (hrange : -(2 ^ 63) ≤ v)
    (hstale : top.count ≠ i64AsU64 v) :
    i64AsU64 v = ((2 ^ 64 : Int) + v).toNat ∧
    2 ^ 63 ≤ i64AsU64 v ∧
    ¬ i64AsU64 v < 1 ∧
    originalStep cfg s = .next { s with queue :=
      { pair := top.pair, count := i64AsU64 v, pos := top.pos } :: rest } ∧
    extendStep cfg s = .next { s with queue :=
      { pair := top.pair, count := i64AsU64 v, pos := top.pos } :: rest } := by
  have hcast : i64AsU64 v = ((2 ^ 64 : Int) + v).toNat := by
    unfold i64AsU64
    congr 1
    omega
  have hbig : 2 ^ 63 ≤ i64AsU64 v := by
    rw [hcast]
    omega
  refine ⟨hcast, hbig, by omega, ?_, ?_⟩
  · have h := (stale_entry_repush cfg s top rest hvs hpop (by rw [hv]; exact hstale)).1
    rw [hv] at h
    exact h
  · have h := (stale_entry_repush cfg s top rest hvs hpop (by rw [hv]; exact hstale)).2
    rw [hv] at h
    exact h

def negW_s : LoopState :=
  { w2id := [("a", 0), ("b", 1)], id2w := ["a", "b"],
    words := [[(0, 1), (1, 1)]], counts := [1],
    pairCounts := fun p => if p = (0, 1) then -1 else 0, wtu := [],
    queue := [{ pair := (0, 1), count := 5, pos := [0] }], merges := [] }

/-- Witness for C9 at a concrete state whose authoritative count is `-1`: the
cast yields `2^64 - 1` and the element is re-pushed with that huge priority. -/
theorem negative_count_cast_witness :
    i64AsU64 (-1) = ((2 ^ 64 : Int) + -1).toNat ∧
    2 ^ 63 ≤ i64AsU64 (-1) ∧
    ¬ i64AsU64 (-1) < 1 ∧
    originalStep staleW_cfg negW_s = .next { negW_s with queue :=
      [{ pair := (0, 1), count := i64AsU64 (-1), pos := [0] }] } ∧
    extendStep staleW_cfg negW_s = .next { negW_s with queue :=
      [{ pair := (0, 1), count := i64AsU64 (-1), pos := [0] }] } :=
  negative_count_cast staleW_cfg negW_s { pair := (0, 1), count := 5, pos := [0] }
    [] (-1) (by decide) (by rfl) (by rfl) (by decide) (by decide) (by decide)

theorem originalStep_eq_top (cfg : Config) (s : LoopState) (top : Merge)
    (rest : List Merge) (hv : ¬ cfg.vocabSize ≤ s.w2id.length)
    (hpop : popMax s.queue = some (top, rest)) :
    originalStep cfg s = originalStepTop cfg s top rest := by
  unfold originalStep
  rw [if_neg hv, hpop]

theorem extendStep_eq_top (cfg : Config) (s : LoopState) (top : Merge)
    (rest : List Merge) (hv : ¬ cfg.vocabSize ≤ s.w2id.length)
    (hpop : popMax s.queue = some (top, rest)) :
    extendStep cfg s = extendStepTop cfg s top rest := by
  unfold extendStep
  rw [if_neg hv, hpop]

theorem originalStepTop_term (cfg : Config) (s : LoopState) (top : Merge)
    (rest : List Merge) (heq : top.count = i64AsU64 (s.pairCounts top.pair))
    (hterm : top.count < 1 ∨ cfg.minFrequency > top.count) :
    originalStepTop cfg s top rest = .stop s := by
  unfold originalStepTop
  rw [if_neg (not_not_intro heq), if_pos hterm]

theorem extendStepTop_term (cfg : Config) (s : LoopState) (top : Merge)
    (rest : List Merge) (heq : top.count = i64AsU64 (s.pairCounts top.pair))
    (hterm : top.count < 1 ∨ cfg.minFrequency > top.count) :
    extendStepTop cfg s top rest = .stop s := by
  unfold extendStepTop
  rw [if_neg (not_not_intro heq), if_pos hterm]

theorem originalStepTop_merge (cfg : Config) (s : LoopState) (top : Merge)
    (rest : List Merge) (heq : top.count = i64AsU64 (s.pairCounts top.pair))
    (hterm : ¬ (top.count < 1 ∨ cfg.minFrequency > top.count)) :
    originalStepTop cfg s top rest =
      .next (performMerge cfg s top rest
        ((buildPartsFrom cfg s.id2w top.pair).1 ++ (buildPartsFrom cfg s.id2w top.pair).2)) := by
  unfold originalStepTop
  rw [if_neg (not_not_intro heq), if_neg hterm]

theorem extendStepTop_filters (cfg : Config) (s : LoopState) (top : Merge)
    (rest : List Merge) (heq : top.count = i64AsU64 (s.pairCounts top.pair))
    (hterm : ¬ (top.count < 1 ∨ cfg.minFrequency > top.count)) :
    extendStepTop cfg s top rest =
      extendStepFilters cfg s top rest (buildPartsFrom cfg s.id2w top.pair) := by
  unfold extendStepTop
  rw [if_neg (not_not_intro heq), if_neg hterm]

theorem extendStepFilters_not_stop (cfg : Config) (s : LoopState) (top : Merge)
    (rest : List Merge) (pp : String × String) (t : LoopState) :
    extendStepFilters cfg s top rest pp ≠ .stop t := by
  unfold extendStepFilters
  by_cases h1 : numGroups (pp.1 ++ pp.2) > 20
  · rw [if_pos h1]
    exact fun h => StepRes.noConfusion h
  · rw [if_neg h1]
    by_cases h2 : (endsDigit pp.1 || startsDigit pp.2) = true
    · rw [if_pos h2]
      exact fun h => StepRes.noConfusion h
    · rw [if_neg h2]
      exact fun h => StepRes.noConfusion h

theorem originalStepTop_stale (cfg : Config) (s : LoopState) (top : Merge)
    (rest : List Merge) (hne : top.count ≠ i64AsU64 (s.pairCounts top.pair)) :
    originalStepTop cfg s top rest = .next { s with queue :=
      { pair := top.pair, count := i64AsU64 (s.pairCounts top.pair),
        pos := top.pos } :: rest } := by
  unfold originalStepTop
  rw [if_pos hne]

theorem extendStepTop_stale (cfg : Config) (s : LoopState) (top : Merge)
    (rest : List Merge) (hne : top.count ≠ i64AsU64 (s.pairCounts top.pair)) :
    extendStepTop cfg s top rest = .next { s with queue :=
      { pair := top.pair, count := i64AsU64 (s.pairCounts top.pair),
        pos := top.pos } :: rest } := by
  unfold extendStepTop
  rw [if_pos hne]

/-- The disjunction of conditions under which a discovery-mode merge loop
iteration breaks: vocabulary budget reached, queue exhausted, or the popped
element passes the stale check with a count below 1 or below `min_frequency`. -/
def stopCond (cfg : Config) (s : LoopState) : Prop :=
  cfg.vocabSize ≤ s.w2id.length ∨ popMax s.queue = none ∨
    ∃ top rest, popMax s.queue = some (top, rest) ∧
      top.count = i64AsU64 (s.pairCounts top.pair) ∧
      (top.count < 1 ∨ cfg.minFrequency > top.count)

theorem not_stopCond (cfg : Config) (s : LoopState) (top : Merge) (rest : List Merge)
    (hv : ¬ cfg.vocabSize ≤ s.w2id.length)
    (hpop : popMax s.queue = some (top, rest))
    (h : ¬ (top.count = i64AsU64 (s.pairCounts top.pair) ∧
      (top.count < 1 ∨ cfg.minFrequency > top.count))) : ¬ stopCond cfg s := by
  rintro (hc | hc | ⟨t', r', hp', he', ht'⟩)
  · exact hv hc
  · rw [hpop] at hc
    exact Option.noConfusion hc
  · rw [hpop] at hp'
    simp only [Option.some.injEq, Prod.mk.injEq] at hp'
    obtain ⟨h1, _⟩ := hp'
    subst h1
    exact h ⟨he', ht'⟩

/-- C5: A discovery-mode merge loop iteration breaks exactly when the
vocabulary has reached `vocab_size`, the queue is empty, or the popped
element passes the stale check with `top.count < 1` or
`min_frequency > top.count` (trainer.rs lines 955-973 and 747-767); a break
returns the state unchanged (no error), and the transfer step hands exactly
the accumulated merge list to the model. -/
theorem loop_termination_conditions (cfg : Config) (s : LoopState) :
    (originalStep cfg s = .stop s ↔ stopCond cfg s) ∧
    (extendStep cfg s = .stop s ↔ stopCond cfg s) ∧
    (∀ t, originalStep cfg s = .stop t → t = s) ∧
    (∀ t, extendStep cfg s = .stop t → t = s) ∧
    (transferOut cfg s).mergesList = s.merges ∧
    (transferOut cfg s).merges = buildModelMerges s.merges := by
  by_cases hv : cfg.vocabSize ≤ s.w2id.length
  · have ho : originalStep cfg s = .stop s := by
      unfold originalStep
      rw [if_pos hv]
    have he : extendStep cfg s = .stop s := by
      unfold extendStep
      rw [if_pos hv]
    refine ⟨⟨fun _ => Or.inl hv, fun _ => ho⟩, ⟨fun _ => Or.inl hv, fun _ => he⟩,
      ?_, ?_, rfl, rfl⟩
    · intro t ht
      rw [ho] at ht
      injection ht with h
      exact h.symm
    · intro t ht
      rw [he] at ht
      injection ht with h
      exact h.symm
  · cases hpop : popMax s.queue with
    | none =>
      have ho : originalStep cfg s = .stop s := by
        unfold originalStep
        rw [if_neg hv, hpop]
      have he : extendStep cfg s = .stop s := by
        unfold extendStep
        rw [if_neg hv, hpop]
      refine ⟨⟨fun _ => Or.inr (Or.inl hpop), fun _ => ho⟩,
        ⟨fun _ => Or.inr (Or.inl hpop), fun _ => he⟩, ?_, ?_, rfl, rfl⟩
      · intro t ht
        rw [ho] at ht
        injection ht with h
        exact h.symm
      · intro t ht
        rw [he] at ht
        injection ht with h
        exact h.symm
    | some r =>
      obtain ⟨top, rest⟩ := r
      have ho := originalStep_eq_top cfg s top rest hv hpop
      have he := extendStep_eq_top cfg s top rest hv hpop
      by_cases hst : top.count = i64AsU64 (s.pairCounts top.pair)
      · by_cases hterm : top.count < 1 ∨ cfg.minFrequency > top.count
        · have ho' : originalStep cfg s = .stop s := by
            rw [ho, originalStepTop_term cfg s top rest hst hterm]
          have he' : extendStep cfg s = .stop s := by
            rw [he, extendStepTop_term cfg s top rest hst hterm]
          refine ⟨⟨fun _ => Or.inr (Or.inr ⟨top, rest, hpop, hst, hterm⟩), fun _ => ho'⟩,
            ⟨fun _ => Or.inr (Or.inr ⟨top, rest, hpop, hst, hterm⟩), fun _ => he'⟩,
            ?_, ?_, rfl, rfl⟩
          · intro t ht
            rw [ho'] at ht
            injection ht with h
            exact h.symm
          · intro t ht
            rw [he'] at ht
            injection ht with h
            exact h.symm
        · have hnc : ¬ stopCond cfg s :=
            not_stopCond cfg s top rest hv hpop (fun hh => hterm hh.2)
          have ho' : originalStep cfg s =
              .next (performMerge cfg s top rest
                ((buildPartsFrom cfg s.id2w top.pair).1 ++
                  (buildPartsFrom cfg s.id2w top.pair).2)) := by
            rw [ho, originalStepTop_merge cfg s top rest hst hterm]
          have he' : extendStep cfg s =
              extendStepFilters cfg s top rest (buildPartsFrom cfg s.id2w top.pair) := by
            rw [he, extendStepTop_filters cfg s top rest hst hterm]
          refine ⟨⟨?_, fun hc => absurd hc hnc⟩, ⟨?_, fun hc => absurd hc hnc⟩,
            ?_, ?_, rfl, rfl⟩
          · intro hh
            rw [ho'] at hh
            exact StepRes.noConfusion hh
          · intro hh
            rw [he'] at hh
            exact absurd hh (extendStepFilters_not_stop cfg s top rest _ s)
          · intro t ht
            rw [ho'] at ht
            exact StepRes.noConfusion ht
          · intro t ht
            rw [he'] at ht
            exact absurd ht (extendStepFilters_not_stop cfg s top rest _ t)
      · have hnc : ¬ stopCond cfg s :=
          not_stopCond cfg s top rest hv hpop (fun hh => hst hh.1)
        have ho' := originalStepTop_stale cfg s top rest hst
        have he' := extendStepTop_stale cfg s top rest hst
        rw [ho'] at ho
        rw [he'] at he
        refine ⟨⟨?_, fun hc => absurd hc hnc⟩, ⟨?_, fun hc => absurd hc hnc⟩,
          ?_, ?_, rfl, rfl⟩
        · intro hh
          rw [ho] at hh
          exact StepRes.noConfusion hh
        · intro hh
          rw [he] at hh
          exact StepRes.noConfusion hh
        · intro t ht
          rw [ho] at ht
          exact StepRes.noConfusion ht
        · intro t ht
          rw [he] at ht
          exact StepRes.noConfusion ht

def stopW_s : LoopState :=
  { w2id := [("a", 0)], id2w := ["a"], words := [[(0, 1)]], counts := [1],
    pairCounts := fun _ => 0, wtu := [], queue := [], merges := [((0, 0), 1)] }

/-- Witness for C5 at a concrete state with an empty queue: both loops stop
cleanly with the state unchanged. -/
theorem loop_termination_conditions_witness :
    originalStep staleW_cfg stopW_s = .stop stopW_s ∧
    extendStep staleW_cfg stopW_s = .stop stopW_s :=
  ⟨(loop_termination_conditions staleW_cfg stopW_s).1.mpr
      (Or.inr (Or.inl (by rfl))),
    (loop_termination_conditions staleW_cfg stopW_s).2.1.mpr
      (Or.inr (Or.inl (by rfl)))⟩

theorem bmm_last_wins_go (l : List (Pair × Nat)) (k : Nat)
    (acc : List (Pair × (Nat × Nat))) (p : Pair) (n : Nat) :
    alookup p ((List.enumFrom k (l ++ [(p, n)])).foldl
      (fun m e => assocInsert m e.2.1 (e.1, e.2.2)) acc) = some (k + l.length, n) := by
  induction l generalizing k acc with
  | nil => simp [List.enumFrom, alookup_assocInsert_self]
  | cons x t ih =>
    simp only [List.cons_append, List.enumFrom, List.foldl_cons]
    have h2 := ih (k + 1) (assocInsert acc x.1 (k, x.2))
    have harith : k + 1 + t.length = k + (x :: t).length := by
      simp only [List.length_cons]
      omega
    rw [← harith]
    exact h2

def cfgC10 : Config :=
  { minFrequency := 0, vocabSize := 5, showProgress := false, specialTokens := [],
    limitAlphabet := none, initialAlphabet := [], continuingSubwordPrefix := none,
    endOfWordSuffix := none, maxTokenLength := none }

/-- C10: The `merges` mapping handed to the model is keyed by pair and built
by repeated `HashMap` insertion over the enumerated merge list (trainer.rs
lines 882-886 and 1069-1073), so when a pair is emitted more than once only
the last emission's `(rank, new_id)` survives and the mapping can be smaller
than the emitted list; a concrete extend-mode run (an external merge list
that replays `(xy, b)`, re-forms it via `(x, y)`, and replays it again)
emits the pair `(2, 3)` twice and ends with its second rank in
`model.merges`. -/
theorem merges_map_last_wins :
    (∀ (l : List (Pair × Nat)) (p : Pair) (n : Nat),
      alookup p (buildModelMerges (l ++ [(p, n)])) = some (l.length, n)) ∧
    (buildModelMerges [((0, 1), 5), ((0, 1), 6)]).length = 1 ∧
    Except.map TrainOut.mergesList
      (do_train_extend cfgC10 [("xy", "b"), ("x", "y"), ("xy", "b")]
        [("x", 0), ("y", 1), ("xy", 2), ("b", 3)] [] [("xyb", 1)] 10) =
      .ok [((2, 3), 4), ((0, 1), 2), ((2, 3), 4)] ∧
    Except.map (fun o => alookup ((2 : Nat), (3 : Nat)) o.merges)
      (do_train_extend cfgC10 [("xy", "b"), ("x", "y"), ("xy", "b")]
        [("x", 0), ("y", 1), ("xy", 2), ("b", 3)] [] [("xyb", 1)] 10) =
      .ok (some (2, 4)) := by
  refine ⟨?_, by rfl, by rfl, by rfl⟩
  intro l p n
  unfold buildModelMerges
  have h := bmm_last_wins_go l 0 [] p n
  simpa [List.enum] using h

theorem performMerge_merges (cfg : Config) (s : LoopState) (top : Merge)
    (rest : List Merge) (n : String) :
    (performMerge cfg s top rest n).merges =
      s.merges ++ [(top.pair, (vocabAdd s.w2id s.id2w n).2.2)] := rfl

theorem buildPartsFrom_none_pre (cfg : Config) (id2w : List String) (p : Pair)
    (hpre : cfg.continuingSubwordPrefix = none) :
    buildPartsFrom cfg id2w p = (id2w.getD p.1 "", id2w.getD p.2 "") := by
  unfold buildPartsFrom stripPart
  rw [hpre]

theorem extendStepFilters_next_merges (cfg : Config) (s : LoopState) (top : Merge)
    (rest : List Merge) (pp : String × String) (s' : LoopState)
    (h : extendStepFilters cfg s top rest pp = .next s')
    (hm : s'.merges ≠ s.merges) :
    s'.merges = s.merges ++ [(top.pair, (vocabAdd s.w2id s.id2w (pp.1 ++ pp.2)).2.2)] ∧
    endsDigit pp.1 = false ∧ startsDigit pp.2 = false := by
  unfold extendStepFilters at h
  by_cases h1 : numGroups (pp.1 ++ pp.2) > 20
  · rw [if_pos h1] at h
    injection h with hh
    exact absurd (by rw [← hh]) hm
  · rw [if_neg h1] at h
    by_cases h2 : (endsDigit pp.1 || startsDigit pp.2) = true
    · rw [if_pos h2] at h
      injection h with hh
      exact absurd (by rw [← hh]) hm
    · rw [if_neg h2] at h
      injection h with hh
      simp only [Bool.or_eq_true, not_or, Bool.not_eq_true] at h2
      refine ⟨?_, h2.1, h2.2⟩
      rw [← hh]
      exact performMerge_merges cfg s top rest (pp.1 ++ pp.2)

theorem extendStepFilters_digit_skip (cfg : Config) (s : LoopState) (top : Merge)
    (rest : List Merge) (pp : String × String)
    (h1 : ¬ numGroups (pp.1 ++ pp.2) > 20)
    (h2 : (endsDigit pp.1 || startsDigit pp.2) = true) :
    extendStepFilters cfg s top rest pp = .next { s with queue := rest } := by
  unfold extendStepFilters
  rw [if_neg h1, if_pos h2]

/-- C1 (amended): the digit-boundary guard holds only for the post-replay
discovery loop of `do_train_extend` (trainer.rs lines 802-806) — the
standalone loop of `do_train_original` has no such guard (see the
counterexample) — and it tests the prefix-stripped right part, stated here
for runs with no `continuing_subword_prefix`.  Part one: every merge the
extend loop emits has a left symbol not ending in an ASCII digit and a right
symbol not beginning with one.  Part two: a candidate hitting the guard is
skipped — the iteration only discards the popped element, emitting no merge
and touching no word, vocabulary entry or pair count. -/
theorem digit_guard_extend_only (cfg : Config) (s : LoopState)
    (hpre : cfg.continuingSubwordPrefix = none) :
    (∀ s', extendStep cfg s = .next s' → s'.merges ≠ s.merges →
      ∃ top rest, popMax s.queue = some (top, rest) ∧
        s'.merges = s.merges ++ [(top.pair,
          (vocabAdd s.w2id s.id2w
            (s.id2w.getD top.pair.1 "" ++ s.id2w.getD top.pair.2 "")).2.2)] ∧
        endsDigit (s.id2w.getD top.pair.1 "") = false ∧
        startsDigit (s.id2w.getD top.pair.2 "") = false) ∧
    (∀ top rest, popMax s.queue = some (top, rest) →
      s.w2id.length < cfg.vocabSize →
      top.count = i64AsU64 (s.pairCounts top.pair) →
      ¬ (top.count < 1 ∨ cfg.minFrequency > top.count) →
      ¬ numGroups (s.id2w.getD top.pair.1 "" ++ s.id2w.getD top.pair.2 "") > 20 →
      (endsDigit (s.id2w.getD top.pair.1 "") ||
        startsDigit (s.id2w.getD top.pair.2 "")) = true →
      extendStep cfg s = .next { s with queue := rest }) := by
  constructor
  · intro s' hstep hm
    by_cases hv : cfg.vocabSize ≤ s.w2id.length
    · unfold extendStep at hstep
      rw [if_pos hv] at hstep
      exact StepRes.noConfusion hstep
    · cases hpop : popMax s.queue with
      | none =>
        unfold extendStep at hstep
        rw [if_neg hv, hpop] at hstep
        exact StepRes.noConfusion hstep
      | some r =>
        obtain ⟨top, rest⟩ := r
        rw [extendStep_eq_top cfg s top rest hv hpop] at hstep
        by_cases hst : top.count = i64AsU64 (s.pairCounts top.pair)
        · by_cases hterm : top.count < 1 ∨ cfg.minFrequency > top.count
          · rw [extendStepTop_term cfg s top rest hst hterm] at hstep
            exact StepRes.noConfusion hstep
          · rw [extendStepTop_filters cfg s top rest hst hterm] at hstep
            have hres := extendStepFilters_next_merges cfg s top rest
              (buildPartsFrom cfg s.id2w top.pair) s' hstep hm
            rw [buildPartsFrom_none_pre cfg s.id2w top.pair hpre] at hres
            exact ⟨top, rest, rfl, hres.1, hres.2.1, hres.2.2⟩
        · rw [extendStepTop_stale cfg s top rest hst] at hstep
          injection hstep with hh
          exact absurd (by rw [← hh]) hm
  · intro top rest hpop hv hcnt hterm hg hd
    rw [extendStep_eq_top cfg s top rest (by omega) hpop,
      extendStepTop_filters cfg s top rest hcnt hterm,
      buildPartsFrom_none_pre cfg s.id2w top.pair hpre]
    exact extendStepFilters_digit_skip cfg s top rest _ hg hd

def cfgC1 : Config :=
  { minFrequency := 0, vocabSize := 30000, showProgress := false, specialTokens := [],
    limitAlphabet := none, initialAlphabet := [], continuingSubwordPrefix := none,
    endOfWordSuffix := none, maxTokenLength := none }

/-- Counterexample to C1 as stated: the standalone loop of
`do_train_original` (which has no digit-boundary guard) on the corpus
`{"99": 2}` emits the merge `((0, 0), 1)` whose left symbol
`id_to_word[0] = "9"` ends with an ASCII digit and whose right symbol
`id_to_word[0] = "9"` begins with one. -/
theorem digit_guard_counterexample :
    Except.map TrainOut.mergesList (do_train_original cfgC1 [] [("99", 2)] 10) =
      .ok [((0, 0), 1)] ∧
    Except.map TrainOut.vocab (do_train_original cfgC1 [] [("99", 2)] 10) =
      .ok [("9", 0), ("99", 1)] ∧
    endsDigit "9" = true ∧ startsDigit "9" = true :=
  ⟨rfl, rfl, rfl, rfl⟩

def digitW_s : LoopState :=
  { w2id := [("9", 0), ("x", 1)], id2w := ["9", "x"],
    words := [[(0, 1), (1, 1)]], counts := [1],
    pairCounts := fun p => if p = (0, 1) then 1 else 0, wtu := [],
    queue := [{ pair := (0, 1), count := 1, pos := [0] }], merges := [] }

/-- Witness for the amended C1 at a concrete state whose top candidate is
`"9" ++ "x"`: the digit guard fires and the extend-loop iteration discards
the element without emitting anything. -/
theorem digit_guard_extend_only_witness :
    extendStep staleW_cfg digitW_s = .next { digitW_s with queue := [] } :=
  (digit_guard_extend_only staleW_cfg digitW_s rfl).2
    { pair := (0, 1), count := 1, pos := [0] } [] (by rfl) (by decide) (by rfl)
    (by decide) (by decide) (by rfl)

/-- C2 (amended): `add_special_tokens` ignores the configured
`special_tokens` list (which the trainer only clones into its return value);
the vocabulary instead receives the entries of `special_tokens.txt`, appended
in file order, each required to carry the id `id_to_word.len()` current at
its turn — i.e. ids sequential from the starting length — failing hard on a
mismatch or duplicate. -/
theorem special_tokens_from_file (file w2id' : List (String × Nat))
    (w2id : List (String × Nat)) (id2w id2w' : List String)
    (h : add_special_tokens file w2id id2w = .ok (w2id', id2w')) :
    id2w' = id2w ++ file.map Prod.fst ∧
    (∀ k, k < file.length → (file.getD k ("", 0)).2 = id2w.length + k) := by
  induction file generalizing w2id id2w with
  | nil =>
    unfold add_special_tokens at h
    injection h with hh
    injection hh with h1 h2
    exact ⟨by rw [← h2]; simp, fun k hk => absurd hk (by simp)⟩
  | cons e rest ih =>
    obtain ⟨tok, tid⟩ := e
    unfold add_special_tokens at h
    by_cases h1 : tid ≠ id2w.length
    · rw [if_pos h1] at h
      exact Except.noConfusion h
    · rw [if_neg h1] at h
      by_cases h2 : (alookup tok w2id).isSome = true
      · rw [if_pos h2] at h
        exact Except.noConfusion h
      · rw [if_neg h2] at h
        have hid : tid = id2w.length := by omega
        obtain ⟨ha, hb⟩ := ih (assocInsert w2id tok tid) (id2w ++ [tok]) h
        constructor
        · rw [ha]
          simp
        · intro k hk
          cases k with
          | zero => simpa using hid
          | succ j =>
            have := hb j (by simpa using hk)
            simp only [List.getD_cons_succ]
            rw [this]
            simp
            omega

/-- Witness for the amended C2: loading a two-line `special_tokens.txt`
appends both tokens in file order, and the file ids are forced to be the
successive vocabulary lengths. -/
theorem special_tokens_from_file_witness :
    (["A", "B"] : List String) = [] ++ [("A", 0), ("B", 1)].map Prod.fst ∧
    ([(("A" : String), (0 : Nat)), ("B", 1)].getD 0 ("", 0)).2 = List.length ([] : List String) + 0 :=
  ⟨(special_tokens_from_file [("A", 0), ("B", 1)] [("A", 0), ("B", 1)] [] [] ["A", "B"]
      (by rfl)).1,
    (special_tokens_from_file [("A", 0), ("B", 1)] [("A", 0), ("B", 1)] [] [] ["A", "B"]
      (by rfl)).2 0 (by decide)⟩

def cfgC2 : Config :=
  { minFrequency := 0, vocabSize := 30000, showProgress := false,
    specialTokens := ["[UNK]"], limitAlphabet := none, initialAlphabet := [],
    continuingSubwordPrefix := none, endOfWordSuffix := none, maxTokenLength := none }

/-- Counterexample to C2 as stated: with configured
`special_tokens = ["[UNK]"]` and an empty `special_tokens.txt`, a full
training run never adds `"[UNK]"` to the vocabulary — the configured list is
only cloned into the return value. -/
theorem special_tokens_config_ignored :
    cfgC2.specialTokens = ["[UNK]"] ∧
    Except.map (fun o => alookup "[UNK]" o.vocab)
      (do_train_original cfgC2 [] [("ab", 1)] 10) = .ok none ∧
    Except.map TrainOut.returned (do_train_original cfgC2 [] [("ab", 1)] 10) =
      .ok ["[UNK]"] :=
  ⟨rfl, rfl, rfl⟩

theorem replayStep_eval (cfg : Config) (s : RState) (left right : String)
    (lid rid : Nat) (hL : alookup left s.w2id = some lid)
    (hR : alookup right s.w2id = some rid) :
    replayStep cfg s left right = .ok (replayWithPair cfg s (lid, rid)) := by
  unfold replayStep
  rw [hL, hR]

theorem replayWithPair_of_none (cfg : Config) (s : RState) (p : Pair)
    (hq : alookup p s.queueMap = none) :
    replayWithPair cfg s p = replayPhantom cfg s p := by
  unfold replayWithPair
  rw [hq]

theorem replayWithPair_merges (cfg : Config) (s : RState) (p : Pair) :
    (replayWithPair cfg s p).merges = s.merges ++
      [(p, (vocabAdd s.w2id s.id2w
        ((buildPartsFrom cfg s.id2w p).1 ++ (buildPartsFrom cfg s.id2w p).2)).2.2)] := by
  unfold replayWithPair
  cases hq : alookup p s.queueMap with
  | none => rfl
  | some top => rfl

theorem vocabAdd_lookup_isSome (w2id : List (String × Nat)) (id2w : List String)
    (n : String) : (alookup n (vocabAdd w2id id2w n).1).isSome = true := by
  unfold vocabAdd
  cases h : alookup n w2id with
  | none => simp [alookup_assocInsert_self]
  | some id => simp [h]

theorem replayStep_ok_appends (cfg : Config) (s s' : RState) (e : String × String)
    (h : replayStep cfg s e.1 e.2 = .ok s') :
    ∃ m, s'.merges = s.merges ++ [m] := by
  cases hL : alookup e.1 s.w2id with
  | none =>
    unfold replayStep at h
    rw [hL] at h
    exact Except.noConfusion h
  | some lid =>
    cases hR : alookup e.2 s.w2id with
    | none =>
      unfold replayStep at h
      rw [hL, hR] at h
      exact Except.noConfusion h
    | some rid =>
      have h' := (replayStep_eval cfg s e.1 e.2 lid rid hL hR).symm.trans h
      injection h' with hh
      exact ⟨_, by rw [← hh]; exact replayWithPair_merges cfg s (lid, rid)⟩

theorem replayList_appends (cfg : Config) (entries : List (String × String))
    (s s' : RState) (h : replayList cfg entries s = .ok s') :
    ∃ emitted, s'.merges = s.merges ++ emitted ∧ emitted.length = entries.length := by
  induction entries generalizing s with
  | nil =>
    unfold replayList at h
    injection h with hh
    exact ⟨[], by rw [← hh]; simp, rfl⟩
  | cons e t ih =>
    unfold replayList at h
    cases hs1 : replayStep cfg s e.1 e.2 with
    | error msg =>
      rw [hs1] at h
      exact Except.noConfusion h
    | ok s1 =>
      rw [hs1] at h
      have h' : replayList cfg t s1 = .ok s' := h
      obtain ⟨m, hm⟩ := replayStep_ok_appends cfg s s1 e hs1
      obtain ⟨emitted, he, hlen⟩ := ih s1 h'
      refine ⟨m :: emitted, ?_, by simp [hlen]⟩
      rw [he, hm]
      simp

theorem extendStepFilters_next_append (cfg : Config) (s : LoopState) (top : Merge)
    (rest : List Merge) (pp : String × String) (t : LoopState)
    (h : extendStepFilters cfg s top rest pp = .next t) :
    ∃ added, t.merges = s.merges ++ added := by
  unfold extendStepFilters at h
  by_cases h1 : numGroups (pp.1 ++ pp.2) > 20
  · rw [if_pos h1] at h
    injection h with hh
    exact ⟨[], by rw [← hh]; simp⟩
  · rw [if_neg h1] at h
    by_cases h2 : (endsDigit pp.1 || startsDigit pp.2) = true
    · rw [if_pos h2] at h
      injection h with hh
      exact ⟨[], by rw [← hh]; simp⟩
    · rw [if_neg h2] at h
      injection h with hh
      exact ⟨_, by rw [← hh]; exact performMerge_merges cfg s top rest (pp.1 ++ pp.2)⟩

theorem extendStep_next_append (cfg : Config) (s t : LoopState)
    (h : extendStep cfg s = .next t) : ∃ added, t.merges = s.merges ++ added := by
  by_cases hv : cfg.vocabSize ≤ s.w2id.length
  · unfold extendStep at h
    rw [if_pos hv] at h
    exact StepRes.noConfusion h
  · cases hpop : popMax s.queue with
    | none =>
      unfold extendStep at h
      rw [if_neg hv, hpop] at h
      exact StepRes.noConfusion h
    | some r =>
      obtain ⟨top, rest⟩ := r
      rw [extendStep_eq_top cfg s top rest hv hpop] at h
      by_cases hst : top.count = i64AsU64 (s.pairCounts top.pair)
      · by_cases hterm : top.count < 1 ∨ cfg.minFrequency > top.count
        · rw [extendStepTop_term cfg s top rest hst hterm] at h
          exact StepRes.noConfusion h
        · rw [extendStepTop_filters cfg s top rest hst hterm] at h
          exact extendStepFilters_next_append cfg s top rest _ t h
      · rw [extendStepTop_stale cfg s top rest hst] at h
        injection h with hh
        exact ⟨[], by rw [← hh]; simp⟩

theorem extendStep_stop_same (cfg : Config) (s t : LoopState)
    (h : extendStep cfg s = .stop t) : t.merges = s.merges := by
  by_cases hv : cfg.vocabSize ≤ s.w2id.length
  · unfold extendStep at h
    rw [if_pos hv] at h
    injection h with hh
    rw [← hh]
  · cases hpop : popMax s.queue with
    | none =>
      unfold extendStep at h
      rw [if_neg hv, hpop] at h
      injection h with hh
      rw [← hh]
    | some r =>
      obtain ⟨top, rest⟩ := r
      rw [extendStep_eq_top cfg s top rest hv hpop] at h
      by_cases hst : top.count = i64AsU64 (s.pairCounts top.pair)
      · by_cases hterm : top.count < 1 ∨ cfg.minFrequency > top.count
        · rw [extendStepTop_term cfg s top rest hst hterm] at h
          injection h with hh
          rw [← hh]
        · rw [extendStepTop_filters cfg s top rest hst hterm] at h
          exact absurd h (extendStepFilters_not_stop cfg s top rest _ t)
      · rw [extendStepTop_stale cfg s top rest hst] at h
        exact StepRes.noConfusion h

/-- C6: For an external merge entry `(L, R)` whose pair has no entry in the
replay queue (the pair index proxy, trainer.rs line 614), the trainer still
emits the merge rule and ensures the concatenated symbol is in the
vocabulary, while the words, pair counts, positions and queue are untouched;
a successful replay of the whole list appends exactly one merge per entry,
in order, to the (initially empty) merge list, and every post-replay
discovery iteration only appends to it — so the emitted list begins with
exactly the replayed rules. -/
theorem extend_phantom_replay :
    (∀ (cfg : Config) (s : RState) (L R : String) (lid rid : Nat) (s' : RState),
      alookup L s.w2id = some lid → alookup R s.w2id = some rid →
      alookup ((lid, rid) : Pair) s.queueMap = none →
      replayStep cfg s L R = .ok s' →
      s'.words = s.words ∧ s'.pairCounts = s.pairCounts ∧ s'.wtu = s.wtu ∧
      s'.queueMap = s.queueMap ∧ s'.counts = s.counts ∧
      s'.merges = s.merges ++ [((lid, rid),
        (vocabAdd s.w2id s.id2w ((buildPartsFrom cfg s.id2w (lid, rid)).1 ++
          (buildPartsFrom cfg s.id2w (lid, rid)).2)).2.2)] ∧
      (alookup ((buildPartsFrom cfg s.id2w (lid, rid)).1 ++
        (buildPartsFrom cfg s.id2w (lid, rid)).2) s'.w2id).isSome = true) ∧
    (∀ (cfg : Config) (entries : List (String × String)) (s s' : RState),
      replayList cfg entries s = .ok s' →
      ∃ emitted, s'.merges = s.merges ++ emitted ∧ emitted.length = entries.length) ∧
    (∀ (cfg : Config) (s t : LoopState),
      (extendStep cfg s = .next t → ∃ added, t.merges = s.merges ++ added) ∧
      (extendStep cfg s = .stop t → t.merges = s.merges)) := by
  refine ⟨?_, ?_, ?_⟩
  · intro cfg s L R lid rid s' hL hR hq hstep
    have h' := (replayStep_eval cfg s L R lid rid hL hR).symm.trans hstep
    injection h' with hh
    rw [replayWithPair_of_none cfg s (lid, rid) hq] at hh
    subst hh
    exact ⟨rfl, rfl, rfl, rfl, rfl, rfl,
      vocabAdd_lookup_isSome s.w2id s.id2w _⟩
  · intro cfg entries s s' h
    exact replayList_appends cfg entries s s' h
  · intro cfg s t
    exact ⟨extendStep_next_append cfg s t, extendStep_stop_same cfg s t⟩

def phantomW_s : RState :=
  { w2id := [("a", 0), ("b", 1)], id2w := ["a", "b"], words := [], counts := [],
    pairCounts := fun _ => 0, wtu := [], queueMap := [], merges := [] }

def phantomW_s' : RState :=
  { phantomW_s with
    w2id := [("a", 0), ("b", 1), ("ab", 2)]
    id2w := ["a", "b", "ab"]
    merges := [((0, 1), 2)] }

/-- Witness for C6 at a concrete replay state with an empty queue map: the
entry `("a", "b")` is replayed as a phantom merge — rule emitted, token
`"ab"` added, everything else untouched. -/
theorem extend_phantom_replay_witness :
    phantomW_s'.words = phantomW_s.words ∧
    phantomW_s'.pairCounts = phantomW_s.pairCounts ∧
    phantomW_s'.wtu = phantomW_s.wtu ∧
    phantomW_s'.queueMap = phantomW_s.queueMap ∧
    phantomW_s'.counts = phantomW_s.counts ∧
    phantomW_s'.merges = phantomW_s.merges ++ [(((0 : Nat), (1 : Nat)),
      (vocabAdd phantomW_s.w2id phantomW_s.id2w
        ((buildPartsFrom staleW_cfg phantomW_s.id2w (0, 1)).1 ++
          (buildPartsFrom staleW_cfg phantomW_s.id2w (0, 1)).2)).2.2)] ∧
    (alookup ((buildPartsFrom staleW_cfg phantomW_s.id2w (0, 1)).1 ++
      (buildPartsFrom staleW_cfg phantomW_s.id2w (0, 1)).2) phantomW_s'.w2id).isSome = true :=
  extend_phantom_replay.1 staleW_cfg phantomW_s "a" "b" 0 1 phantomW_s'
    (by rfl) (by rfl) (by rfl) (by rfl)

/-- The vocabulary bijection invariant: `word_to_id` and `id_to_word` have
the same cardinality and are mutually inverse. -/
def VocabInv (w2id : List (String × Nat)) (id2w : List String) : Prop :=
  w2id.length = id2w.length ∧
  (∀ i, i < id2w.length → alookup (id2w.getD i "") w2id = some i) ∧
  (∀ s n, alookup s w2id = some n → n < id2w.length ∧ id2w.getD n "" = s)

theorem append_fresh_inv (w2id : List (String × Nat)) (id2w : List String)
    (t : String) (hinv : VocabInv w2id id2w) (hfresh : alookup t w2id = none) :
    VocabInv (assocInsert w2id t id2w.length) (id2w ++ [t]) := by
  obtain ⟨hlen, hfwd, hbwd⟩ := hinv
  rw [assocInsert_of_alookup_none w2id t id2w.length hfresh]
  refine ⟨by simp [hlen], ?_, ?_⟩
  · intro i hi
    rw [List.length_append, List.length_singleton] at hi
    by_cases hlt : i < id2w.length
    · rw [getD_append_of_lt id2w [t] i hlt, alookup_append, hfwd i hlt]
    · have hieq : i = id2w.length := by omega
      subst hieq
      rw [getD_append_length id2w t, alookup_append, hfresh]
      simp [alookup]
  · intro s n h
    rw [alookup_append] at h
    cases hw : alookup s w2id with
    | some m =>
      rw [hw] at h
      have h' : some m = some n := h
      injection h' with hmn
      subst hmn
      obtain ⟨h1, h2⟩ := hbwd s m hw
      refine ⟨by simp; omega, ?_⟩
      rw [getD_append_of_lt id2w [t] m h1]
      exact h2
    | none =>
      rw [hw] at h
      have h' : alookup s [(t, id2w.length)] = some n := h
      unfold alookup at h'
      by_cases ht : t = s
      · rw [if_pos ht] at h'
        injection h' with hn
        subst ht
        refine ⟨by simp; omega, ?_⟩
        rw [← hn, getD_append_length]
      · rw [if_neg ht] at h'
        exact Option.noConfusion h'

theorem vocabAdd_inv (w2id : List (String × Nat)) (id2w : List String) (s : String)
    (hinv : VocabInv w2id id2w) :
    VocabInv (vocabAdd w2id id2w s).1 (vocabAdd w2id id2w s).2.1 := by
  unfold vocabAdd
  cases h : alookup s w2id with
  | some id => exact hinv
  | none => exact append_fresh_inv w2id id2w s hinv h

theorem foldl_vocab_pairs_inv (entries : List (Char × Nat)) :
    ∀ (w2id : List (String × Nat)) (id2w : List String), VocabInv w2id id2w →
    VocabInv
      ((entries.foldl (fun st e =>
        ((vocabAdd st.1 st.2 e.1.toString).1, (vocabAdd st.1 st.2 e.1.toString).2.1))
        (w2id, id2w)).1)
      ((entries.foldl (fun st e =>
        ((vocabAdd st.1 st.2 e.1.toString).1, (vocabAdd st.1 st.2 e.1.toString).2.1))
        (w2id, id2w)).2) := by
  induction entries with
  | nil => intro w2id id2w h; exact h
  | cons e t ih =>
    intro w2id id2w h
    simp only [List.foldl_cons]
    exact ih _ _ (vocabAdd_inv w2id id2w e.1.toString h)

theorem compute_alphabet_inv (cfg : Config) (wc : List (String × Nat))
    (w2id : List (String × Nat)) (id2w : List String)
    (hinv : VocabInv w2id id2w) :
    VocabInv (compute_alphabet cfg wc w2id id2w).1
             (compute_alphabet cfg wc w2id id2w).2 := by
  unfold compute_alphabet
  exact foldl_vocab_pairs_inv _ w2id id2w hinv

theorem tokenizeChars_inv (cfg : Config) (chars : List Char) :
    ∀ (isFirst : Bool) (w2id : List (String × Nat)) (id2w : List String)
      (word : WordSyms), VocabInv w2id id2w →
    VocabInv (tokenizeChars cfg chars isFirst w2id id2w word).1
             (tokenizeChars cfg chars isFirst w2id id2w word).2.1 := by
  induction chars with
  | nil => intro isFirst w2id id2w word h; exact h
  | cons ch rest ih =>
    intro isFirst w2id id2w word h
    unfold tokenizeChars
    by_cases hin : (alookup ch.toString w2id).isSome = true
    · rw [if_pos hin]
      exact ih false _ _ _ (vocabAdd_inv _ _ _ h)
    · rw [if_neg hin]
      exact ih false _ _ _ h

theorem tokenize_words_inv (cfg : Config) (wc : List (String × Nat)) :
    ∀ (w2id : List (String × Nat)) (id2w : List String), VocabInv w2id id2w →
    VocabInv (tokenize_words cfg wc w2id id2w).1
             (tokenize_words cfg wc w2id id2w).2.1 := by
  induction wc with
  | nil => intro w2id id2w h; exact h
  | cons e rest ih =>
    intro w2id id2w h
    unfold tokenize_words
    exact ih _ _ (tokenizeChars_inv cfg e.1.data true w2id id2w [] h)

theorem add_special_tokens_inv (file : List (String × Nat)) :
    ∀ (w2id w2id' : List (String × Nat)) (id2w id2w' : List String),
    VocabInv w2id id2w →
    add_special_tokens file w2id id2w = .ok (w2id', id2w') →
    VocabInv w2id' id2w' := by
  induction file with
  | nil =>
    intro w2id w2id' id2w id2w' hinv hok
    unfold add_special_tokens at hok
    injection hok with hh
    injection hh with h1 h2
    rw [← h1, ← h2]
    exact hinv
  | cons e rest ih =>
    obtain ⟨tok, tid⟩ := e
    intro w2id w2id' id2w id2w' hinv hok
    unfold add_special_tokens at hok
    by_cases h1 : tid ≠ id2w.length
    · rw [if_pos h1] at hok
      exact Except.noConfusion hok
    · rw [if_neg h1] at hok
      by_cases h2 : (alookup tok w2id).isSome = true
      · rw [if_pos h2] at hok
        exact Except.noConfusion hok
      · rw [if_neg h2] at hok
        have htid : tid = id2w.length := by omega
        have hfresh : alookup tok w2id = none := by
          cases hx : alookup tok w2id with
          | none => rfl
          | some v => rw [hx] at h2; simp at h2
        refine ih _ _ _ _ ?_ hok
        rw [htid]
        exact append_fresh_inv w2id id2w tok hinv hfresh

theorem load_alphabet_inv (file : List (String × Nat)) :
    ∀ (w2id w2id' : List (String × Nat)) (id2w id2w' : List String),
    VocabInv w2id id2w →
    (∀ t ∈ file.map Prod.fst, alookup t w2id = none) →
    (file.map Prod.fst).Nodup →
    load_alphabet file w2id id2w = .ok (w2id', id2w') →
    VocabInv w2id' id2w' := by
  induction file with
  | nil =>
    intro w2id w2id' id2w id2w' hinv _ _ hok
    unfold load_alphabet at hok
    injection hok with hh
    injection hh with h1 h2
    rw [← h1, ← h2]
    exact hinv
  | cons e rest ih =>
    obtain ⟨tok, tid⟩ := e
    intro w2id w2id' id2w id2w' hinv hfr hnd hok
    unfold load_alphabet at hok
    by_cases h1 : id2w.length ≠ tid
    · rw [if_pos h1] at hok
      exact Except.noConfusion hok
    · rw [if_neg h1] at hok
      have htid : tid = id2w.length := by omega
      have hf0 : alookup tok w2id = none := hfr tok (by simp)
      simp only [List.map_cons, List.nodup_cons] at hnd
      refine ih _ _ _ _ ?_ ?_ hnd.2 hok
      · rw [htid]
        exact append_fresh_inv w2id id2w tok hinv hf0
      · intro t ht
        have hne : t ≠ tok := by
          intro hteq
          subst hteq
          exact hnd.1 ht
        rw [alookup_assocInsert_ne w2id tok t tid hne]
        exact hfr t (by simp [ht])

theorem performMerge_inv (cfg : Config) (s : LoopState) (top : Merge)
    (rest : List Merge) (n : String) (h : VocabInv s.w2id s.id2w) :
    VocabInv (performMerge cfg s top rest n).w2id (performMerge cfg s top rest n).id2w :=
  vocabAdd_inv s.w2id s.id2w n h

theorem originalStep_inv (cfg : Config) (s : LoopState)
    (h : VocabInv s.w2id s.id2w) :
    VocabInv (originalStep cfg s).state.w2id (originalStep cfg s).state.id2w := by
  by_cases hv : cfg.vocabSize ≤ s.w2id.length
  · unfold originalStep
    rw [if_pos hv]
    exact h
  · cases hpop : popMax s.queue with
    | none =>
      unfold originalStep
      rw [if_neg hv, hpop]
      exact h
    | some r =>
      obtain ⟨top, rest⟩ := r
      rw [originalStep_eq_top cfg s top rest hv hpop]
      by_cases hst : top.count = i64AsU64 (s.pairCounts top.pair)
      · by_cases hterm : top.count < 1 ∨ cfg.minFrequency > top.count
        · rw [originalStepTop_term cfg s top rest hst hterm]
          exact h
        · rw [originalStepTop_merge cfg s top rest hst hterm]
          exact performMerge_inv cfg s top rest _ h
      · rw [originalStepTop_stale cfg s top rest hst]
        exact h

theorem extendStepFilters_inv (cfg : Config) (s : LoopState) (top : Merge)
    (rest : List Merge) (pp : String × String) (h : VocabInv s.w2id s.id2w) :
    VocabInv (extendStepFilters cfg s top rest pp).state.w2id
             (extendStepFilters cfg s top rest pp).state.id2w := by
  unfold extendStepFilters
  by_cases h1 : numGroups (pp.1 ++ pp.2) > 20
  · rw [if_pos h1]
    exact h
  · rw [if_neg h1]
    by_cases h2 : (endsDigit pp.1 || startsDigit pp.2) = true
    · rw [if_pos h2]
      exact h
    · rw [if_neg h2]
      exact performMerge_inv cfg s top rest _ h

theorem extendStep_inv (cfg : Config) (s : LoopState)
    (h : VocabInv s.w2id s.id2w) :
    VocabInv (extendStep cfg s).state.w2id (extendStep cfg s).state.id2w := by
  by_cases hv : cfg.vocabSize ≤ s.w2id.length
  · unfold extendStep
    rw [if_pos hv]
    exact h
  · cases hpop : popMax s.queue with
    | none =>
      unfold extendStep
      rw [if_neg hv, hpop]
      exact h
    | some r =>
      obtain ⟨top, rest⟩ := r
      rw [extendStep_eq_top cfg s top rest hv hpop]
      by_cases hst : top.count = i64AsU64 (s.pairCounts top.pair)
      · by_cases hterm : top.count < 1 ∨ cfg.minFrequency > top.count
        · rw [extendStepTop_term cfg s top rest hst hterm]
          exact h
        · rw [extendStepTop_filters cfg s top rest hst hterm]
          exact extendStepFilters_inv cfg s top rest _ h
      · rw [extendStepTop_stale cfg s top rest hst]
        exact h

theorem replayStep_inv (cfg : Config) (s : RState) (left right : String)
    (s' : RState) (h : VocabInv s.w2id s.id2w)
    (hok : replayStep cfg s left right = .ok s') :
    VocabInv s'.w2id s'.id2w := by
  cases hL : alookup left s.w2id with
  | none =>
    unfold replayStep at hok
    rw [hL] at hok
    exact Except.noConfusion hok
  | some lid =>
    cases hR : alookup right s.w2id with
    | none =>
      unfold replayStep at hok
      rw [hL, hR] at hok
      exact Except.noConfusion hok
    | some rid =>
      have h' := (replayStep_eval cfg s left right lid rid hL hR).symm.trans hok
      injection h' with hh
      rw [← hh]
      unfold replayWithPair
      cases hq : alookup ((lid, rid) : Pair) s.queueMap with
      | none => exact vocabAdd_inv s.w2id s.id2w _ h
      | some top => exact vocabAdd_inv s.w2id s.id2w _ h


/-- Entry immutability across a vocabulary operation: every existing
`word_to_id` entry keeps its id, and `id_to_word` only grows by appending
(so no entry of either map is ever changed once inserted). -/
def VocabEvolves (w2id w2id' : List (String × Nat)) (id2w id2w' : List String) : Prop :=
  (∀ x n, alookup x w2id = some n → alookup x w2id' = some n) ∧
  ∃ tail, id2w' = id2w ++ tail

theorem vocabEvolves_refl (w2id : List (String × Nat)) (id2w : List String) :
    VocabEvolves w2id w2id id2w id2w :=
  ⟨fun _ _ h => h, [], by simp⟩

theorem vocabEvolves_trans {w1 w2 w3 : List (String × Nat)} {i1 i2 i3 : List String}
    (h1 : VocabEvolves w1 w2 i1 i2) (h2 : VocabEvolves w2 w3 i2 i3) :
    VocabEvolves w1 w3 i1 i3 := by
  obtain ⟨hl1, t1, ht1⟩ := h1
  obtain ⟨hl2, t2, ht2⟩ := h2
  exact ⟨fun x n h => hl2 x n (hl1 x n h), t1 ++ t2,
    by rw [ht2, ht1, List.append_assoc]⟩

theorem append_fresh_evolves (w2id : List (String × Nat)) (id2w : List String)
    (t : String) (hfresh : alookup t w2id = none) :
    VocabEvolves w2id (assocInsert w2id t id2w.length) id2w (id2w ++ [t]) := by
  rw [assocInsert_of_alookup_none w2id t id2w.length hfresh]
  refine ⟨?_, [t], rfl⟩
  intro x n hx
  rw [alookup_append, hx]

theorem vocabAdd_evolves (w2id : List (String × Nat)) (id2w : List String)
    (s : String) :
    VocabEvolves w2id (vocabAdd w2id id2w s).1 id2w (vocabAdd w2id id2w s).2.1 := by
  unfold vocabAdd
  cases h : alookup s w2id with
  | some id => exact vocabEvolves_refl w2id id2w
  | none => exact append_fresh_evolves w2id id2w s h

theorem foldl_vocab_pairs_evolves (entries : List (Char × Nat)) :
    ∀ (w2id : List (String × Nat)) (id2w : List String),
    VocabEvolves w2id
      ((entries.foldl (fun st e =>
        ((vocabAdd st.1 st.2 e.1.toString).1, (vocabAdd st.1 st.2 e.1.toString).2.1))
        (w2id, id2w)).1)
      id2w
      ((entries.foldl (fun st e =>
        ((vocabAdd st.1 st.2 e.1.toString).1, (vocabAdd st.1 st.2 e.1.toString).2.1))
        (w2id, id2w)).2) := by
  induction entries with
  | nil => intro w2id id2w; exact vocabEvolves_refl w2id id2w
  | cons e t ih =>
    intro w2id id2w
    simp only [List.foldl_cons]
    exact vocabEvolves_trans (vocabAdd_evolves w2id id2w e.1.toString) (ih _ _)

theorem compute_alphabet_evolves (cfg : Config) (wc : List (String × Nat))
    (w2id : List (String × Nat)) (id2w : List String) :
    VocabEvolves w2id (compute_alphabet cfg wc w2id id2w).1
      id2w (compute_alphabet cfg wc w2id id2w).2 := by
  unfold compute_alphabet
  exact foldl_vocab_pairs_evolves _ w2id id2w

theorem tokenizeChars_evolves (cfg : Config) (chars : List Char) :
    ∀ (isFirst : Bool) (w2id : List (String × Nat)) (id2w : List String)
      (word : WordSyms),
    VocabEvolves w2id (tokenizeChars cfg chars isFirst w2id id2w word).1
      id2w (tokenizeChars cfg chars isFirst w2id id2w word).2.1 := by
  induction chars with
  | nil => intro isFirst w2id id2w word; exact vocabEvolves_refl w2id id2w
  | cons ch rest ih =>
    intro isFirst w2id id2w word
    unfold tokenizeChars
    by_cases hin : (alookup ch.toString w2id).isSome = true
    · rw [if_pos hin]
      exact vocabEvolves_trans (vocabAdd_evolves w2id id2w _) (ih false _ _ _)
    · rw [if_neg hin]
      exact ih false _ _ _

theorem tokenize_words_evolves (cfg : Config) (wc : List (String × Nat)) :
    ∀ (w2id : List (String × Nat)) (id2w : List String),
    VocabEvolves w2id (tokenize_words cfg wc w2id id2w).1
      id2w (tokenize_words cfg wc w2id id2w).2.1 := by
  induction wc with
  | nil => intro w2id id2w; exact vocabEvolves_refl w2id id2w
  | cons e rest ih =>
    intro w2id id2w
    unfold tokenize_words
    exact vocabEvolves_trans (tokenizeChars_evolves cfg e.1.data true w2id id2w []) (ih _ _)

theorem add_special_tokens_evolves (file : List (String × Nat)) :
    ∀ (w2id w2id' : List (String × Nat)) (id2w id2w' : List String),
    add_special_tokens file w2id id2w = .ok (w2id', id2w') →
    VocabEvolves w2id w2id' id2w id2w' := by
  induction file with
  | nil =>
    intro w2id w2id' id2w id2w' hok
    unfold add_special_tokens at hok
    injection hok with hh
    injection hh with h1 h2
    rw [← h1, ← h2]
    exact vocabEvolves_refl w2id id2w
  | cons e rest ih =>
    obtain ⟨tok, tid⟩ := e
    intro w2id w2id' id2w id2w' hok
    unfold add_special_tokens at hok
    by_cases h1 : tid ≠ id2w.length
    · rw [if_pos h1] at hok
      exact Except.noConfusion hok
    · rw [if_neg h1] at hok
      by_cases h2 : (alookup tok w2id).isSome = true
      · rw [if_pos h2] at hok
        exact Except.noConfusion hok
      · rw [if_neg h2] at hok
        have htid : tid = id2w.length := by omega
        have hfresh : alookup tok w2id = none := by
          cases hx : alookup tok w2id with
          | none => rfl
          | some v => rw [hx] at h2; simp at h2
        refine vocabEvolves_trans ?_ (ih _ _ _ _ hok)
        rw [htid]
        exact append_fresh_evolves w2id id2w tok hfresh

theorem load_alphabet_evolves (file : List (String × Nat)) :
    ∀ (w2id w2id' : List (String × Nat)) (id2w id2w' : List String),
    (∀ t ∈ file.map Prod.fst, alookup t w2id = none) →
    (file.map Prod.fst).Nodup →
    load_alphabet file w2id id2w = .ok (w2id', id2w') →
    VocabEvolves w2id w2id' id2w id2w' := by
  induction file with
  | nil =>
    intro w2id w2id' id2w id2w' _ _ hok
    unfold load_alphabet at hok
    injection hok with hh
    injection hh with h1 h2
    rw [← h1, ← h2]
    exact vocabEvolves_refl w2id id2w
  | cons e rest ih =>
    obtain ⟨tok, tid⟩ := e
    intro w2id w2id' id2w id2w' hfr hnd hok
    unfold load_alphabet at hok
    by_cases h1 : id2w.length ≠ tid
    · rw [if_pos h1] at hok
      exact Except.noConfusion hok
    · rw [if_neg h1] at hok
      have htid : tid = id2w.length := by omega
      have hf0 : alookup tok w2id = none := hfr tok (by simp)
      simp only [List.map_cons, List.nodup_cons] at hnd
      refine vocabEvolves_trans ?_ (ih _ _ _ _ ?_ hnd.2 hok)
      · rw [htid]
        exact append_fresh_evolves w2id id2w tok hf0
      · intro t ht
        have hne : t ≠ tok := by
          intro hteq
          subst hteq
          exact hnd.1 ht
        rw [alookup_assocInsert_ne w2id tok t tid hne]
        exact hfr t (by simp [ht])

theorem performMerge_evolves (cfg : Config) (s : LoopState) (top : Merge)
    (rest : List Merge) (n : String) :
    VocabEvolves s.w2id (performMerge cfg s top rest n).w2id
      s.id2w (performMerge cfg s top rest n).id2w :=
  vocabAdd_evolves s.w2id s.id2w n

theorem originalStep_evolves (cfg : Config) (s : LoopState) :
    VocabEvolves s.w2id (originalStep cfg s).state.w2id
      s.id2w (originalStep cfg s).state.id2w := by
  by_cases hv : cfg.vocabSize ≤ s.w2id.length
  · unfold originalStep
    rw [if_pos hv]
    exact vocabEvolves_refl s.w2id s.id2w
  · cases hpop : popMax s.queue with
    | none =>
      unfold originalStep
      rw [if_neg hv, hpop]
      exact vocabEvolves_refl s.w2id s.id2w
    | some r =>
      obtain ⟨top, rest⟩ := r
      rw [originalStep_eq_top cfg s top rest hv hpop]
      by_cases hst : top.count = i64AsU64 (s.pairCounts top.pair)
      · by_cases hterm : top.count < 1 ∨ cfg.minFrequency > top.count
        · rw [originalStepTop_term cfg s top rest hst hterm]
          exact vocabEvolves_refl s.w2id s.id2w
        · rw [originalStepTop_merge cfg s top rest hst hterm]
          exact performMerge_evolves cfg s top rest _
      · rw [originalStepTop_stale cfg s top rest hst]
        exact vocabEvolves_refl s.w2id s.id2w

theorem extendStepFilters_evolves (cfg : Config) (s : LoopState) (top : Merge)
    (rest : List Merge) (pp : String × String) :
    VocabEvolves s.w2id (extendStepFilters cfg s top rest pp).state.w2id
      s.id2w (extendStepFilters cfg s top rest pp).state.id2w := by
  unfold extendStepFilters
  by_cases h1 : numGroups (pp.1 ++ pp.2) > 20
  · rw [if_pos h1]
    exact vocabEvolves_refl s.w2id s.id2w
  · rw [if_neg h1]
    by_cases h2 : (endsDigit pp.1 || startsDigit pp.2) = true
    · rw [if_pos h2]
      exact vocabEvolves_refl s.w2id s.id2w
    · rw [if_neg h2]
      exact performMerge_evolves cfg s top rest _

theorem extendStep_evolves (cfg : Config) (s : LoopState) :
    VocabEvolves s.w2id (extendStep cfg s).state.w2id
      s.id2w (extendStep cfg s).state.id2w := by
  by_cases hv : cfg.vocabSize ≤ s.w2id.length
  · unfold extendStep
    rw [if_pos hv]
    exact vocabEvolves_refl s.w2id s.id2w
  · cases hpop : popMax s.queue with
    | none =>
      unfold extendStep
      rw [if_neg hv, hpop]
      exact vocabEvolves_refl s.w2id s.id2w
    | some r =>
      obtain ⟨top, rest⟩ := r
      rw [extendStep_eq_top cfg s top rest hv hpop]
      by_cases hst : top.count = i64AsU64 (s.pairCounts top.pair)
      · by_cases hterm : top.count < 1 ∨ cfg.minFrequency > top.count
        · rw [extendStepTop_term cfg s top rest hst hterm]
          exact vocabEvolves_refl s.w2id s.id2w
        · rw [extendStepTop_filters cfg s top rest hst hterm]
          exact extendStepFilters_evolves cfg s top rest _
      · rw [extendStepTop_stale cfg s top rest hst]
        exact vocabEvolves_refl s.w2id s.id2w

theorem replayStep_evolves (cfg : Config) (s : RState) (left right : String)
    (s' : RState) (hok : replayStep cfg s left right = .ok s') :
    VocabEvolves s.w2id s'.w2id s.id2w s'.id2w := by
  cases hL : alookup left s.w2id with
  | none =>
    unfold replayStep at hok
    rw [hL] at hok
    exact Except.noConfusion hok
  | some lid =>
    cases hR : alookup right s.w2id with
    | none =>
      unfold replayStep at hok
      rw [hL, hR] at hok
      exact Except.noConfusion hok
    | some rid =>
      have h' := (replayStep_eval cfg s left right lid rid hL hR).symm.trans hok
      injection h' with hh
      rw [← hh]
      unfold replayWithPair
      cases hq : alookup ((lid, rid) : Pair) s.queueMap with
      | none => exact vocabAdd_evolves s.w2id s.id2w _
      | some top => exact vocabAdd_evolves s.w2id s.id2w _

/-- C7 (amended): `word_to_id` and `id_to_word` have the same cardinality,
are mutually inverse, and once inserted an entry is never changed (every
existing `word_to_id` entry keeps its id, `id_to_word` only grows by
appending); every trainer operation preserves both properties — the
vocabulary-insertion pattern, special-token loading, alphabet construction,
word encoding, both discovery-mode loop iterations and the replay step — with
one proviso the claim missed: the extend-mode `alphabet.txt` loader performs
no freshness check (trainer.rs lines 525-527), so its preservation requires
the loaded symbols to be distinct and fresh (see the counterexample for a
duplicate symbol both remapping the earlier entry and breaking the
bijection). -/
theorem vocab_bijection_invariant :
    (∀ (w2id : List (String × Nat)) (id2w : List String) (s : String),
      (VocabInv w2id id2w →
        VocabInv (vocabAdd w2id id2w s).1 (vocabAdd w2id id2w s).2.1) ∧
      VocabEvolves w2id (vocabAdd w2id id2w s).1 id2w (vocabAdd w2id id2w s).2.1) ∧
    (∀ (file w2id w2id' : List (String × Nat)) (id2w id2w' : List String),
      add_special_tokens file w2id id2w = .ok (w2id', id2w') →
      (VocabInv w2id id2w → VocabInv w2id' id2w') ∧
      VocabEvolves w2id w2id' id2w id2w') ∧
    (∀ (file w2id w2id' : List (String × Nat)) (id2w id2w' : List String),
      (∀ t ∈ file.map Prod.fst, alookup t w2id = none) →
      (file.map Prod.fst).Nodup →
      load_alphabet file w2id id2w = .ok (w2id', id2w') →
      (VocabInv w2id id2w → VocabInv w2id' id2w') ∧
      VocabEvolves w2id w2id' id2w id2w') ∧
    (∀ (cfg : Config) (wc w2id : List (String × Nat)) (id2w : List String),
      (VocabInv w2id id2w →
        VocabInv (compute_alphabet cfg wc w2id id2w).1 (compute_alphabet cfg wc w2id id2w).2) ∧
      VocabEvolves w2id (compute_alphabet cfg wc w2id id2w).1
        id2w (compute_alphabet cfg wc w2id id2w).2) ∧
    (∀ (cfg : Config) (wc w2id : List (String × Nat)) (id2w : List String),
      (VocabInv w2id id2w →
        VocabInv (tokenize_words cfg wc w2id id2w).1 (tokenize_words cfg wc w2id id2w).2.1) ∧
      VocabEvolves w2id (tokenize_words cfg wc w2id id2w).1
        id2w (tokenize_words cfg wc w2id id2w).2.1) ∧
    (∀ (cfg : Config) (s : LoopState),
      (VocabInv s.w2id s.id2w →
        VocabInv (originalStep cfg s).state.w2id (originalStep cfg s).state.id2w) ∧
      VocabEvolves s.w2id (originalStep cfg s).state.w2id
        s.id2w (originalStep cfg s).state.id2w) ∧
    (∀ (cfg : Config) (s : LoopState),
      (VocabInv s.w2id s.id2w →
        VocabInv (extendStep cfg s).state.w2id (extendStep cfg s).state.id2w) ∧
      VocabEvolves s.w2id (extendStep cfg s).state.w2id
        s.id2w (extendStep cfg s).state.id2w) ∧
    (∀ (cfg : Config) (s : RState) (left right : String) (s' : RState),
      replayStep cfg s left right = .ok s' →
      (VocabInv s.w2id s.id2w → VocabInv s'.w2id s'.id2w) ∧
      VocabEvolves s.w2id s'.w2id s.id2w s'.id2w) :=
  ⟨fun w2id id2w s =>
      ⟨vocabAdd_inv w2id id2w s, vocabAdd_evolves w2id id2w s⟩,
    fun file w2id w2id' id2w id2w' hok =>
      ⟨fun hinv => add_special_tokens_inv file w2id w2id' id2w id2w' hinv hok,
        add_special_tokens_evolves file w2id w2id' id2w id2w' hok⟩,
    fun file w2id w2id' id2w id2w' hfr hnd hok =>
      ⟨fun hinv => load_alphabet_inv file w2id w2id' id2w id2w' hinv hfr hnd hok,
        load_alphabet_evolves file w2id w2id' id2w id2w' hfr hnd hok⟩,
    fun cfg wc w2id id2w =>
      ⟨compute_alphabet_inv cfg wc w2id id2w, compute_alphabet_evolves cfg wc w2id id2w⟩,
    fun cfg wc w2id id2w =>
      ⟨tokenize_words_inv cfg wc w2id id2w, tokenize_words_evolves cfg wc w2id id2w⟩,
    fun cfg s => ⟨originalStep_inv cfg s, originalStep_evolves cfg s⟩,
    fun cfg s => ⟨extendStep_inv cfg s, extendStep_evolves cfg s⟩,
    fun cfg s left right s' hok =>
      ⟨fun hinv => replayStep_inv cfg s left right s' hinv hok,
        replayStep_evolves cfg s left right s' hok⟩⟩

/-- Counterexample to C7 as stated: a duplicate symbol in `alphabet.txt`
passes the loader's only check (sequential ids) but violates the claim twice
over — after the first line `"x"` is mapped to 0, after the second line the
very same entry has been changed to map `"x"` to 1, and the final state
breaks the bijection (`id_to_word` lists `"x"` twice while `word_to_id` has
one entry, so the cardinalities differ and `word_to_id[id_to_word[0]] ≠ 0`). -/
theorem vocab_bijection_counterexample :
    load_alphabet [("x", 0)] [] [] = .ok ([("x", 0)], ["x"]) ∧
    alookup "x" [("x", 0)] = some 0 ∧
    load_alphabet [("x", 0), ("x", 1)] [] [] = .ok ([("x", 1)], ["x", "x"]) ∧
    alookup "x" [("x", 1)] = some 1 ∧
    ¬ VocabInv [("x", 1)] ["x", "x"] :=
  ⟨rfl, rfl, rfl, rfl, fun h => absurd h.1 (by decide)⟩

/-- Witness for the amended C7: inserting a fresh token into the empty
vocabulary yields an invariant-satisfying state and only extends the maps. -/
theorem vocab_bijection_invariant_witness :
    VocabInv [("a", 0)] ["a"] ∧ VocabEvolves [] [("a", 0)] [] ["a"] := by
  have h0 : VocabInv [] [] := by
    refine ⟨rfl, ?_, ?_⟩
    · intro i hi
      simp at hi
    · intro s n h
      unfold alookup at h
      exact Option.noConfusion h
  exact ⟨(vocab_bijection_invariant.1 [] [] "a").1 h0,
    (vocab_bijection_invariant.1 [] [] "a").2⟩

/-- Key list of a character-weight map has no duplicates. -/
def KeysNodup (m : List (Char × Nat)) : Prop := (m.map Prod.fst).Nodup

theorem alphaAdd_keys (t : List (Char × Nat)) (c : Char) (cnt : Nat) :
    (alphaAdd t c cnt).map Prod.fst =
      if c ∈ t.map Prod.fst then t.map Prod.fst else t.map Prod.fst ++ [c] := by
  induction t with
  | nil => simp [alphaAdd]
  | cons x t' ih =>
    obtain ⟨a, b⟩ := x
    by_cases hac : a = c
    · subst hac
      simp [alphaAdd]
    · simp only [alphaAdd, if_neg hac, List.map_cons]
      rw [ih]
      by_cases hc : c ∈ t'.map Prod.fst
      · rw [if_pos hc, if_pos (by simp [hc])]
      · rw [if_neg hc, if_neg (by
          simp only [List.mem_cons]
          rintro (h | h)
          · exact hac h.symm
          · exact hc h)]
        simp

theorem alphaSetMax_keys (t : List (Char × Nat)) (c : Char) :
    (alphaSetMax t c).map Prod.fst =
      if c ∈ t.map Prod.fst then t.map Prod.fst else t.map Prod.fst ++ [c] := by
  induction t with
  | nil => simp [alphaSetMax]
  | cons x t' ih =>
    obtain ⟨a, b⟩ := x
    by_cases hac : a = c
    · subst hac
      simp [alphaSetMax]
    · simp only [alphaSetMax, if_neg hac, List.map_cons]
      rw [ih]
      by_cases hc : c ∈ t'.map Prod.fst
      · rw [if_pos hc, if_pos (by simp [hc])]
      · rw [if_neg hc, if_neg (by
          simp only [List.mem_cons]
          rintro (h | h)
          · exact hac h.symm
          · exact hc h)]
        simp

theorem keys_nodup_of_ins (ks : List Char) (c : Char) (h : ks.Nodup) :
    (if c ∈ ks then ks else ks ++ [c]).Nodup := by
  by_cases hc : c ∈ ks
  · rw [if_pos hc]
    exact h
  · rw [if_neg hc]
    simp [List.nodup_append, h, hc]

theorem alphaAdd_keys_nodup (t : List (Char × Nat)) (c : Char) (cnt : Nat)
    (h : KeysNodup t) : KeysNodup (alphaAdd t c cnt) := by
  unfold KeysNodup at *
  rw [alphaAdd_keys]
  exact keys_nodup_of_ins _ c h

theorem alphaSetMax_keys_nodup (t : List (Char × Nat)) (c : Char)
    (h : KeysNodup t) : KeysNodup (alphaSetMax t c) := by
  unfold KeysNodup at *
  rw [alphaSetMax_keys]
  exact keys_nodup_of_ins _ c h

theorem tallyWord_keys_nodup (cnt : Nat) (chars : List Char) :
    ∀ m, KeysNodup m → KeysNodup (tallyWord cnt chars m) := by
  induction chars with
  | nil => intro m h; exact h
  | cons ch rest ih => intro m h; exact ih _ (alphaAdd_keys_nodup m ch cnt h)

theorem alphaTally_keys_nodup (wc : List (String × Nat)) :
    ∀ m, KeysNodup m → KeysNodup (alphaTally wc m) := by
  induction wc with
  | nil => intro m h; exact h
  | cons e rest ih => intro m h; exact ih _ (tallyWord_keys_nodup e.2 e.1.data m h)

theorem foldSetMax_keys_nodup (cs : List Char) :
    ∀ t, KeysNodup t → KeysNodup (cs.foldl alphaSetMax t) := by
  induction cs with
  | nil => intro t h; exact h
  | cons d rest ih => intro t h; exact ih _ (alphaSetMax_keys_nodup t d h)

theorem alphaMap_keys_nodup (cfg : Config) (wc : List (String × Nat)) :
    KeysNodup (alphaMap cfg wc) := by
  unfold alphaMap
  refine foldSetMax_keys_nodup _ _ (alphaTally_keys_nodup _ _ ?_)
  unfold KeysNodup
  simp

theorem alphaSetMax_mem_self (t : List (Char × Nat)) (c : Char) :
    (c, USIZE_MAX) ∈ alphaSetMax t c := by
  induction t with
  | nil => simp [alphaSetMax]
  | cons x t' ih =>
    obtain ⟨a, b⟩ := x
    by_cases hac : a = c
    · subst hac
      simp [alphaSetMax]
    · simp only [alphaSetMax, if_neg hac]
      exact List.mem_cons_of_mem _ ih

theorem alphaSetMax_mem_pres (t : List (Char × Nat)) (c d : Char)
    (h : (c, USIZE_MAX) ∈ t) : (c, USIZE_MAX) ∈ alphaSetMax t d := by
  induction t with
  | nil => simp at h
  | cons x t' ih =>
    obtain ⟨a, b⟩ := x
    by_cases had : a = d
    · subst had
      simp only [alphaSetMax, if_pos rfl]
      rcases List.mem_cons.1 h with h1 | h1
      · have hca : c = a := congrArg Prod.fst h1
        subst hca
        exact List.mem_cons_self _ _
      · exact List.mem_cons_of_mem _ h1
    · simp only [alphaSetMax, if_neg had]
      rcases List.mem_cons.1 h with h1 | h1
      · rw [h1]
        exact List.mem_cons_self _ _
      · exact List.mem_cons_of_mem _ (ih h1)

theorem foldSetMax_mem_pres (cs : List Char) :
    ∀ t (c : Char), (c, USIZE_MAX) ∈ t → (c, USIZE_MAX) ∈ cs.foldl alphaSetMax t := by
  induction cs with
  | nil => intro t c h; exact h
  | cons d rest ih => intro t c h; exact ih _ c (alphaSetMax_mem_pres t c d h)

theorem foldSetMax_mem (cs : List Char) :
    ∀ t (c : Char), c ∈ cs → (c, USIZE_MAX) ∈ cs.foldl alphaSetMax t := by
  induction cs with
  | nil => intro t c h; simp at h
  | cons d rest ih =>
    intro t c h
    rcases List.mem_cons.1 h with h1 | h1
    · subst h1
      exact foldSetMax_mem_pres rest _ c (alphaSetMax_mem_self t c)
    · exact ih _ c h1

theorem alphaSetMax_char_nodup (t : List (Char × Nat)) (d : Char)
    (hnd : KeysNodup t) :
    ∀ e ∈ alphaSetMax t d, e = (d, USIZE_MAX) ∨ (e ∈ t ∧ e.1 ≠ d) := by
  induction t with
  | nil =>
    intro e he
    simp [alphaSetMax] at he
    left
    simp [he]
  | cons x t' ih =>
    obtain ⟨a, b⟩ := x
    unfold KeysNodup at hnd
    simp only [List.map_cons, List.nodup_cons] at hnd
    intro e he
    by_cases had : a = d
    · subst had
      simp only [alphaSetMax, if_pos rfl] at he
      rcases List.mem_cons.1 he with h1 | h1
      · left
        exact h1
      · right
        refine ⟨List.mem_cons_of_mem _ h1, ?_⟩
        intro hed
        exact hnd.1 (hed ▸ List.mem_map_of_mem Prod.fst h1)
    · simp only [alphaSetMax, if_neg had] at he
      rcases List.mem_cons.1 he with h1 | h1
      · right
        refine ⟨by rw [h1]; exact List.mem_cons_self _ _, ?_⟩
        rw [h1]
        exact had
      · rcases ih hnd.2 e h1 with h2 | h2
        · left
          exact h2
        · right
          exact ⟨List.mem_cons_of_mem _ h2.1, h2.2⟩

theorem foldSetMax_char (cs : List Char) :
    ∀ t, KeysNodup t →
    ∀ e ∈ cs.foldl alphaSetMax t,
      (e.1 ∈ cs ∧ e.2 = USIZE_MAX) ∨ (e ∈ t ∧ e.1 ∉ cs) := by
  induction cs with
  | nil =>
    intro t _ e he
    right
    exact ⟨he, by simp⟩
  | cons d rest ih =>
    intro t hnd e he
    rcases ih (alphaSetMax t d) (alphaSetMax_keys_nodup t d hnd) e he with h1 | h1
    · left
      exact ⟨List.mem_cons_of_mem _ h1.1, h1.2⟩
    · rcases alphaSetMax_char_nodup t d hnd e h1.1 with h2 | h2
      · left
        rw [h2]
        exact ⟨List.mem_cons_self _ _, rfl⟩
      · right
        refine ⟨h2.1, ?_⟩
        simp only [List.mem_cons, not_or]
        exact ⟨h2.2, h1.2⟩

theorem filter_split_length (l : List (Char × Nat)) (p : (Char × Nat) → Bool) :
    (l.filter p).length + (l.filter (fun a => ! p a)).length = l.length := by
  induction l with
  | nil => simp
  | cons x t ih =>
    by_cases hx : p x = true
    · simp [List.filter_cons, hx]
      omega
    · simp [List.filter_cons, hx]
      omega

theorem sorted_drop_keeps_max (l : List (Char × Nat)) :
    ∀ n, List.Sorted weightLE l →
    (∀ e ∈ l, e.2 ≤ USIZE_MAX) →
    n ≤ (l.filter (fun e => decide (e.2 < USIZE_MAX))).length →
    ∀ e ∈ l, e.2 = USIZE_MAX → e ∈ l.drop n := by
  induction l with
  | nil => intro n _ _ _ e he; simp at he
  | cons x t ih =>
    intro n hs hle hn e he hemax
    cases n with
    | zero => exact he
    | succ k =>
      rw [List.sorted_cons] at hs
      by_cases hx : x.2 < USIZE_MAX
      · rw [List.filter_cons_of_pos (by simp [hx])] at hn
        simp only [List.length_cons] at hn
        rcases List.mem_cons.1 he with h1 | h1
        · rw [h1] at hemax
          omega
        · simp only [List.drop_succ_cons]
          exact ih k hs.2 (fun e' he' => hle e' (List.mem_cons_of_mem _ he'))
            (by omega) e h1 hemax
      · exfalso
        have hxmax : x.2 = USIZE_MAX := by
          have := hle x (List.mem_cons_self _ _)
          omega
        have hnone : (x :: t).filter (fun e => decide (e.2 < USIZE_MAX)) = [] := by
          rw [List.filter_eq_nil_iff]
          intro a ha
          simp only [decide_eq_true_eq]
          rcases List.mem_cons.1 ha with h1 | h1
          · rw [h1]
            exact hx
          · have h2 := hs.1 a h1
            unfold weightLE at h2
            have h3 := hle a ha
            omega
        rw [hnone] at hn
        simp at hn

theorem alphaKept_keeps_initial (cfg : Config) (wc : List (String × Nat)) (c : Char)
    (hc : c ∈ cfg.initialAlphabet)
    (hlim : ∀ l, cfg.limitAlphabet = some l → cfg.initialAlphabet.length ≤ l)
    (hw : ∀ e ∈ alphaTally wc [], e.1 ∉ cfg.initialAlphabet → e.2 < USIZE_MAX) :
    (c, USIZE_MAX) ∈ alphaKept cfg wc := by
  have htnd : KeysNodup (alphaTally wc []) :=
    alphaTally_keys_nodup wc [] (by unfold KeysNodup; simp)
  have hmem : (c, USIZE_MAX) ∈ alphaMap cfg wc := foldSetMax_mem _ _ c hc
  have hchar : ∀ e ∈ alphaMap cfg wc,
      (e.1 ∈ cfg.initialAlphabet ∧ e.2 = USIZE_MAX) ∨
      (e ∈ alphaTally wc [] ∧ e.1 ∉ cfg.initialAlphabet) :=
    foldSetMax_char cfg.initialAlphabet (alphaTally wc []) htnd
  have hle : ∀ e ∈ alphaMap cfg wc, e.2 ≤ USIZE_MAX := by
    intro e he
    rcases hchar e he with h1 | h1
    · exact Nat.le_of_eq h1.2
    · exact Nat.le_of_lt (hw e h1.1 h1.2)
  have hmaxkey : ∀ e ∈ alphaMap cfg wc, ¬ (e.2 < USIZE_MAX) →
      e.1 ∈ cfg.initialAlphabet := by
    intro e he hnl
    rcases hchar e he with h1 | h1
    · exact h1.1
    · exact absurd (hw e h1.1 h1.2) hnl
  unfold alphaKept
  by_cases hr : alphaToRemove cfg wc > 0
  · rw [if_pos hr]
    rcases hL : cfg.limitAlphabet with _ | l
    · unfold alphaToRemove at hr
      rw [hL] at hr
      simp at hr
    · have hgt : (alphaMap cfg wc).length > l := by
        by_contra hng
        unfold alphaToRemove at hr
        rw [hL] at hr
        have hr2 : (if (alphaMap cfg wc).length > l then
            (alphaMap cfg wc).length - l else 0) > 0 := hr
        rw [if_neg hng] at hr2
        simp at hr2
      have hTR : alphaToRemove cfg wc = (alphaMap cfg wc).length - l := by
        unfold alphaToRemove
        rw [hL]
        show (if (alphaMap cfg wc).length > l then
          (alphaMap cfg wc).length - l else 0) = (alphaMap cfg wc).length - l
        rw [if_pos hgt]
      have hFsub : ∀ k ∈ ((alphaMap cfg wc).filter
          (fun a => ! decide (a.2 < USIZE_MAX))).map Prod.fst,
          k ∈ cfg.initialAlphabet := by
        intro k hk
        rcases List.mem_map.1 hk with ⟨e, heF, hek⟩
        have heM : e ∈ alphaMap cfg wc := List.mem_of_mem_filter heF
        have hprop : ¬ (e.2 < USIZE_MAX) := by
          have hb := List.of_mem_filter heF
          simp at hb
          omega
        rw [← hek]
        exact hmaxkey e heM hprop
      have hFnd : (((alphaMap cfg wc).filter
          (fun a => ! decide (a.2 < USIZE_MAX))).map Prod.fst).Nodup := by
        have hnd := alphaMap_keys_nodup cfg wc
        unfold KeysNodup at hnd
        exact List.Nodup.sublist (List.Sublist.map Prod.fst (List.filter_sublist _)) hnd
      have hFlen : ((alphaMap cfg wc).filter
          (fun a => ! decide (a.2 < USIZE_MAX))).length ≤
          cfg.initialAlphabet.length := by
        have hcard1 := List.toFinset_card_of_nodup hFnd
        have hsubF : (((alphaMap cfg wc).filter
            (fun a => ! decide (a.2 < USIZE_MAX))).map Prod.fst).toFinset ⊆
            cfg.initialAlphabet.toFinset := by
          intro k hk
          rw [List.mem_toFinset] at hk ⊢
          exact hFsub k hk
        have h2 := le_trans (Finset.card_le_card hsubF) (List.toFinset_card_le _)
        rw [hcard1] at h2
        simpa using h2
      have hsplit := filter_split_length (alphaMap cfg wc)
        (fun e => decide (e.2 < USIZE_MAX))
      have hbound : (alphaMap cfg wc).length - l ≤
          ((alphaMap cfg wc).filter (fun e => decide (e.2 < USIZE_MAX))).length := by
        have hil := hlim l hL
        omega
      have hsorted := List.sorted_insertionSort weightLE (alphaMap cfg wc)
      have hperm := List.perm_insertionSort weightLE (alphaMap cfg wc)
      have hflen : ((List.insertionSort weightLE (alphaMap cfg wc)).filter
          (fun e => decide (e.2 < USIZE_MAX))).length =
          ((alphaMap cfg wc).filter (fun e => decide (e.2 < USIZE_MAX))).length :=
        (hperm.filter _).length_eq
      rw [hTR]
      exact sorted_drop_keeps_max _ _ hsorted
        (fun e he => hle e (hperm.mem_iff.1 he))
        (by rw [hflen]; exact hbound)
        (c, USIZE_MAX) (hperm.mem_iff.2 hmem) rfl
  · rw [if_neg hr]
    exact hmem

theorem vocabAdd_lookup_mono (w2id : List (String × Nat)) (id2w : List String)
    (s x : String) (h : (alookup x w2id).isSome = true) :
    (alookup x (vocabAdd w2id id2w s).1).isSome = true := by
  unfold vocabAdd
  cases hs : alookup s w2id with
  | some id => exact h
  | none =>
    rw [assocInsert_of_alookup_none w2id s id2w.length hs]
    rw [alookup_append]
    cases hx : alookup x w2id with
    | some v => simp
    | none => rw [hx] at h; simp at h

theorem foldl_vocabAdd_lookup_mem (entries : List (Char × Nat)) :
    ∀ (w2id : List (String × Nat)) (id2w : List String) (c : Char),
    ((∃ v, (c, v) ∈ entries) ∨ (alookup c.toString w2id).isSome = true) →
    (alookup c.toString
      ((entries.foldl (fun st e =>
        ((vocabAdd st.1 st.2 e.1.toString).1, (vocabAdd st.1 st.2 e.1.toString).2.1))
        (w2id, id2w)).1)).isSome = true := by
  induction entries with
  | nil =>
    intro w2id id2w c h
    rcases h with ⟨v, hv⟩ | h
    · simp at hv
    · exact h
  | cons e t ih =>
    intro w2id id2w c h
    simp only [List.foldl_cons]
    rcases h with ⟨v, hv⟩ | h
    · rcases List.mem_cons.1 hv with h1 | h1
      · have hce : c = e.1 := by
          have := congrArg Prod.fst h1
          simpa using this
        refine ih _ _ c (Or.inr ?_)
        rw [hce]
        exact vocabAdd_lookup_isSome w2id id2w e.1.toString
      · exact ih _ _ c (Or.inl ⟨v, h1⟩)
    · exact ih _ _ c (Or.inr (vocabAdd_lookup_mono w2id id2w e.1.toString c.toString h))

/-- C8 (amended): every character of `initial_alphabet` survives the culling
of `compute_alphabet` and ends up in the vocabulary provided
`limit_alphabet`, when set, is at least `|initial_alphabet|`, and no
non-forced character's tallied weight reaches the `usize::MAX` sentinel
(automatic in practice).  Without the limit proviso the claim is false: the
drain removes the `to_remove` lowest-weight characters regardless, and since
all sentinel weights tie, forced characters are dropped whenever
`to_remove` exceeds the number of non-forced characters (see the
counterexample, and the source's own comment at trainer.rs lines 311-312). -/
theorem initial_alphabet_survives (cfg : Config) (wc : List (String × Nat))
    (w2id : List (String × Nat)) (id2w : List String) (c : Char)
    (hc : c ∈ cfg.initialAlphabet)
    (hlim : ∀ l, cfg.limitAlphabet = some l → cfg.initialAlphabet.length ≤ l)
    (hw : ∀ e ∈ alphaTally wc [], e.1 ∉ cfg.initialAlphabet → e.2 < USIZE_MAX) :
    (alookup c.toString (compute_alphabet cfg wc w2id id2w).1).isSome = true := by
  have hk : (c, USIZE_MAX) ∈ alphaKept cfg wc :=
    alphaKept_keeps_initial cfg wc c hc hlim hw
  have hs : (c, USIZE_MAX) ∈ List.insertionSort codepointLE (alphaKept cfg wc) :=
    (List.perm_insertionSort codepointLE _).mem_iff.2 hk
  unfold compute_alphabet
  exact foldl_vocabAdd_lookup_mem _ w2id id2w c (Or.inl ⟨USIZE_MAX, hs⟩)

def cfgC8 : Config :=
  { minFrequency := 0, vocabSize := 30000, showProgress := false, specialTokens := [],
    limitAlphabet := some 1, initialAlphabet := ['a', 'b'],
    continuingSubwordPrefix := none, endOfWordSuffix := none, maxTokenLength := none }

/-- Counterexample to C8 as stated: with `limit_alphabet = 1` and forced
characters `{a, b}` (an empty corpus), the culling step drops one of the two
forced characters — here `'a'` fails to appear in the resulting vocabulary. -/
theorem initial_alphabet_culled_counterexample :
    compute_alphabet cfgC8 [] [] [] = ([("b", 0)], ["b"]) ∧
    'a' ∈ cfgC8.initialAlphabet ∧
    alookup "a" [("b", 0)] = none :=
  ⟨rfl, by decide, rfl⟩

def cfgC8w : Config :=
  { minFrequency := 0, vocabSize := 30000, showProgress := false, specialTokens := [],
    limitAlphabet := some 1, initialAlphabet := ['z'],
    continuingSubwordPrefix := none, endOfWordSuffix := none, maxTokenLength := none }

/-- Witness for the amended C8: with `limit_alphabet = 1` and forced
character `'z'` over the corpus `{"a": 1}`, the corpus character `'a'` is
culled but `'z'` survives into the vocabulary. -/
theorem initial_alphabet_survives_witness :
    (alookup "z" (compute_alphabet cfgC8w [("a", 1)] [] []).1).isSome = true :=
  initial_alphabet_survives cfgC8w [("a", 1)] [] [] 'z' (by decide)
    (fun l hl => by
      injection hl with h
      rw [← h]
      decide)
    (by decide)
